import Mathlib

/-!
Verification of the topological analysis engine of the Reeb repository
(level-line tracer `levelLine.cpp` and persistence engine `persistence.cpp`)
against its natural-language specification.

The C++ code is shallowly embedded:
* images are total functions from flat indices (`ℤ`) to values
  (`ℕ` for the 8-bit image of the tracer, `ℚ` for the float image of the
  persistence engine; exact rationals stand for IEEE floats, all the
  arithmetic the claims depend on being order/field reasoning),
* mutable arrays become functions updated pointwise,
* loops whose bound is not structural take an explicit fuel argument,
* `std::sort` becomes `List.mergeSort` with the same comparator
  (the comparator is a strict total order, so the sorted permutation is
  unique and any sorting algorithm is a faithful embedding).
-/

namespace Reeb

/-! ## Geometry kernel: the bilinear saddle test

`level_saddle` (levelLine.cpp) works on the 8-bit image, and the per-cell
body of `fill_virtual_samples` (persistence.cpp) on the float image.
Both compute `sb`/`sc` signs of `b`, `c` against `[min(a,d), max(a,d)]`
and report the saddle value `(a*d - b*c)/(a+d-b-c)` iff `sb*sc > 0`. -/

/-- Sign of `b` against the closed interval `[lo, hi]` as in the C++
`b<min? -1: b>max? 1: 0`. -/
def cornerSign (lo hi b : ℚ) : ℤ :=
  if b < lo then -1 else if hi < b then 1 else 0

/-- Embedding of `level_saddle(im,w,h,x,y,v)` from levelLine.cpp:
returns `some v` instead of writing the out-parameter and returning true. -/
def level_saddle (im : ℤ → ℕ) (w h x y : ℕ) : Option ℚ :=
  if w ≤ x + 1 ∨ h ≤ y + 1 then none
  else
    let idx0 : ℤ := x + w * y
    let a := im idx0
    let b := im (idx0 + 1)
    let c := im (idx0 + w)
    let d := im (idx0 + w + 1)
    let mn : ℕ := if d < a then d else a
    let mx : ℕ := if d < a then a else d
    let sb := cornerSign mn mx b
    let sc := cornerSign mn mx c
    if sb * sc ≤ 0 then none
    else some (((a * d - b * c : ℤ) : ℚ) / ((a + d - b - c : ℤ) : ℚ))

/-- Embedding of the loop body of `fill_virtual_samples` (persistence.cpp):
value of the virtual-sample grid at cell `(x,y)`; `-1` is the sentinel. -/
def fill_virtual_samples (im : ℤ → ℚ) (w h : ℕ) (x y : ℤ) : ℚ :=
  if x + 1 < (w : ℤ) ∧ y + 1 < (h : ℤ) then
    let pos : ℤ := y * w + x
    let a := im pos
    let b := im (pos + 1)
    let c := im (pos + w)
    let d := im (pos + w + 1)
    let mn := min a d
    let mx := max a d
    if 0 < cornerSign mn mx b * cornerSign mn mx c
    then (a * d - b * c) / (a + d - b - c)
    else -1
  else -1

/-- The specification's condition: `b` and `c` are both strictly outside the
closed interval `[min(a,d), max(a,d)]` and on the same side of it. -/
def saddleSpecCond (a b c d : ℚ) : Prop :=
  (b < min a d ∧ c < min a d) ∨ (max a d < b ∧ max a d < c)

instance (a b c d : ℚ) : Decidable (saddleSpecCond a b c d) := by
  unfold saddleSpecCond; infer_instance

/-- The sign product is positive exactly when `b` and `c` are both strictly
outside `[lo, hi]` on the same side. -/
lemma cornerSign_mul_pos_iff (lo hi b c : ℚ) (h : lo ≤ hi) :
    0 < cornerSign lo hi b * cornerSign lo hi c ↔
      ((b < lo ∧ c < lo) ∨ (hi < b ∧ hi < c)) := by
  unfold cornerSign
  split_ifs <;> norm_num <;>
    first
      | linarith
      | tauto
      | (constructor <;> intro hc <;> first | linarith | tauto)

/-- The sign product used by the code is positive exactly on the
specification's condition. -/
lemma cornerSign_mul_pos_iff_spec (a b c d : ℚ) :
    0 < cornerSign (min a d) (max a d) b * cornerSign (min a d) (max a d) c ↔
      saddleSpecCond a b c d :=
  cornerSign_mul_pos_iff _ _ _ _ (min_le_max)

/-- The saddle value of a saddle-bearing dual pixel lies strictly between the
diagonal pair the level surface separates: strictly above `max a d` and below
`min b c` when `b, c` are above, and symmetrically when they are below. -/
lemma saddle_value_between (a b c d : ℚ) (h : saddleSpecCond a b c d) :
    (max a d < (a * d - b * c) / (a + d - b - c) ∧
       (a * d - b * c) / (a + d - b - c) < min b c) ∨
    (max b c < (a * d - b * c) / (a + d - b - c) ∧
       (a * d - b * c) / (a + d - b - c) < min a d) := by
  rcases h with ⟨hb, hc⟩ | ⟨hb, hc⟩
  · -- b and c strictly below min a d : denominator positive
    have hba : b < a := lt_of_lt_of_le hb (min_le_left _ _)
    have hbd : b < d := lt_of_lt_of_le hb (min_le_right _ _)
    have hca : c < a := lt_of_lt_of_le hc (min_le_left _ _)
    have hcd : c < d := lt_of_lt_of_le hc (min_le_right _ _)
    have hD : 0 < a + d - b - c := by linarith
    right
    constructor
    · rw [max_lt_iff, lt_div_iff hD, lt_div_iff hD]
      constructor
      · nlinarith [mul_pos (sub_pos.2 hba) (sub_pos.2 hbd)]
      · nlinarith [mul_pos (sub_pos.2 hca) (sub_pos.2 hcd)]
    · rw [lt_min_iff, div_lt_iff hD, div_lt_iff hD]
      constructor
      · nlinarith [mul_pos (sub_pos.2 hba) (sub_pos.2 hca)]
      · nlinarith [mul_pos (sub_pos.2 hbd) (sub_pos.2 hcd)]
  · -- b and c strictly above max a d : denominator negative
    have hba : a < b := lt_of_le_of_lt (le_max_left _ _) hb
    have hbd : d < b := lt_of_le_of_lt (le_max_right _ _) hb
    have hca : a < c := lt_of_le_of_lt (le_max_left _ _) hc
    have hcd : d < c := lt_of_le_of_lt (le_max_right _ _) hc
    have hD : a + d - b - c < 0 := by linarith
    left
    constructor
    · rw [max_lt_iff, lt_div_iff_of_neg hD, lt_div_iff_of_neg hD]
      constructor
      · nlinarith [mul_pos (sub_pos.2 hba) (sub_pos.2 hca)]
      · nlinarith [mul_pos (sub_pos.2 hbd) (sub_pos.2 hcd)]
    · rw [lt_min_iff, div_lt_iff_of_neg hD, div_lt_iff_of_neg hD]
      constructor
      · nlinarith [mul_pos (sub_pos.2 hba) (sub_pos.2 hbd)]
      · nlinarith [mul_pos (sub_pos.2 hca) (sub_pos.2 hcd)]

/-- The saddle value lies strictly between the smallest and the largest of
the four corner values. -/
lemma saddle_value_strict (a b c d : ℚ) (h : saddleSpecCond a b c d) :
    min (min a b) (min c d) < (a * d - b * c) / (a + d - b - c) ∧
      (a * d - b * c) / (a + d - b - c) < max (max a b) (max c d) := by
  rcases saddle_value_between a b c d h with ⟨h1, h2⟩ | ⟨h1, h2⟩
  · constructor
    · calc min (min a b) (min c d) ≤ a :=
            le_trans (min_le_left _ _) (min_le_left _ _)
        _ ≤ max a d := le_max_left _ _
        _ < _ := h1
    · calc (a * d - b * c) / (a + d - b - c) < min b c := h2
        _ ≤ b := min_le_left _ _
        _ ≤ max a b := le_max_right _ _
        _ ≤ max (max a b) (max c d) := le_max_left _ _
  · constructor
    · calc min (min a b) (min c d) ≤ min c d := min_le_right _ _
        _ ≤ c := min_le_left _ _
        _ ≤ max b c := le_max_right _ _
        _ < _ := h1
    · calc (a * d - b * c) / (a + d - b - c) < min a d := h2
        _ ≤ a := min_le_left _ _
        _ ≤ max a b := le_max_left _ _
        _ ≤ max (max a b) (max c d) := le_max_left _ _

/-- The saddle value stays inside any interval containing the four corner
values. -/
lemma saddle_value_mem (lo hi a b c d : ℚ) (h : saddleSpecCond a b c d)
    (ha1 : lo ≤ a) (ha2 : a ≤ hi) (hb1 : lo ≤ b) (hb2 : b ≤ hi)
    (hc1 : lo ≤ c) (hc2 : c ≤ hi) (hd1 : lo ≤ d) (hd2 : d ≤ hi) :
    lo ≤ (a * d - b * c) / (a + d - b - c) ∧
      (a * d - b * c) / (a + d - b - c) ≤ hi := by
  rcases saddle_value_between a b c d h with ⟨h1, h2⟩ | ⟨h1, h2⟩
  · exact ⟨le_of_lt (lt_of_le_of_lt (le_trans ha1 (le_max_left a d)) h1),
      le_of_lt (lt_of_lt_of_le h2 (le_trans (min_le_left b c) hb2))⟩
  · exact ⟨le_of_lt (lt_of_le_of_lt (le_trans hb1 (le_max_left b c)) h1),
      le_of_lt (lt_of_lt_of_le h2 (le_trans (min_le_left a d) ha2))⟩

/-- Casting the C++ `min=a; max=d; if(min>max) swap;` idiom to `ℚ`. -/
lemma natMin_cast (a d : ℕ) : ((if d < a then d else a : ℕ) : ℚ) = min (a : ℚ) d := by
  split_ifs with hda
  · rw [min_eq_right]; exact_mod_cast hda.le
  · rw [min_eq_left]; exact_mod_cast Nat.le_of_not_lt hda

/-- Casting the C++ swap idiom, max side. -/
lemma natMax_cast (a d : ℕ) : ((if d < a then a else d : ℕ) : ℚ) = max (a : ℚ) d := by
  split_ifs with hda
  · rw [max_eq_left]; exact_mod_cast hda.le
  · rw [max_eq_right]; exact_mod_cast Nat.le_of_not_lt hda

/-- Characterization of `level_saddle` by the specification's condition. -/
lemma level_saddle_char (im : ℤ → ℕ) (w h x y : ℕ) :
    level_saddle im w h x y =
      (let pos : ℤ := x + w * y
       let a := im pos
       let b := im (pos + 1)
       let c := im (pos + w)
       let d := im (pos + w + 1)
       if x + 1 < w ∧ y + 1 < h ∧ saddleSpecCond a b c d
       then some (((a * d - b * c : ℤ) : ℚ) / ((a + d - b - c : ℤ) : ℚ))
       else none) := by
  simp only [level_saddle]
  by_cases hg : w ≤ x + 1 ∨ h ≤ y + 1
  · rw [if_pos hg, if_neg]
    intro hcon
    rcases hcon with ⟨h1, h2, _⟩
    omega
  · rw [if_neg hg]
    push_neg at hg
    have hiff := cornerSign_mul_pos_iff_spec (im (x + w * y))
      (im ((x : ℤ) + w * y + 1)) (im ((x : ℤ) + w * y + w))
      (im ((x : ℤ) + w * y + w + 1))
    rw [natMin_cast, natMax_cast]
    by_cases hs : saddleSpecCond (im (x + w * y) : ℚ)
        (im ((x : ℤ) + w * y + 1)) (im ((x : ℤ) + w * y + w))
        (im ((x : ℤ) + w * y + w + 1))
    · rw [if_neg (by rw [not_le]; exact hiff.2 hs), if_pos ⟨hg.1, hg.2, hs⟩]
    · rw [if_pos (le_of_not_lt (fun hpos => hs (hiff.1 hpos))),
        if_neg (by rintro ⟨_, _, hs2⟩; exact hs hs2)]

/-- Characterization of the `fill_virtual_samples` cell by the
specification's condition. -/
lemma fill_virtual_samples_char (im : ℤ → ℚ) (w h : ℕ) (x y : ℤ) :
    fill_virtual_samples im w h x y =
      (let pos : ℤ := y * w + x
       let a := im pos
       let b := im (pos + 1)
       let c := im (pos + w)
       let d := im (pos + w + 1)
       if x + 1 < (w : ℤ) ∧ y + 1 < (h : ℤ) ∧ saddleSpecCond a b c d
       then (a * d - b * c) / (a + d - b - c)
       else -1) := by
  simp only [fill_virtual_samples]
  by_cases hg : x + 1 < (w : ℤ) ∧ y + 1 < (h : ℤ)
  · rw [if_pos hg]
    have hiff := cornerSign_mul_pos_iff_spec (im (y * w + x))
      (im (y * w + x + 1)) (im (y * w + x + w)) (im (y * w + x + w + 1))
    by_cases hs : saddleSpecCond (im (y * w + x)) (im (y * w + x + 1))
        (im (y * w + x + w)) (im (y * w + x + w + 1))
    · rw [if_pos (hiff.2 hs), if_pos ⟨hg.1, hg.2, hs⟩]
    · rw [if_neg (fun hpos => hs (hiff.1 hpos)),
        if_neg (by rintro ⟨_, _, hs2⟩; exact hs hs2)]
  · rw [if_neg hg, if_neg (by rintro ⟨h1, h2, _⟩; exact hg ⟨h1, h2⟩)]

/-- C1. Both saddle tests — `level_saddle` in the level-line tracer and the
per-cell body of `fill_virtual_samples` in the persistence engine — report a
saddle, with value `(a*d - b*c)/((a+d) - (b+c))`, if and only if the corner
values `b` (top-right) and `c` (bottom-left) are both strictly outside the
closed interval `[min(a,d), max(a,d)]` spanned by the diagonal corners `a`
(top-left) and `d` (bottom-right), on the same side of it; in every other
case (including out-of-range cells) they report no saddle (`none`, resp. the
sentinel `-1`). -/
theorem C1_saddle_in_square :
    (∀ (im : ℤ → ℕ) (w h x y : ℕ),
      level_saddle im w h x y =
        (let pos : ℤ := x + w * y
         let a := im pos
         let b := im (pos + 1)
         let c := im (pos + w)
         let d := im (pos + w + 1)
         if x + 1 < w ∧ y + 1 < h ∧ saddleSpecCond a b c d
         then some (((a * d - b * c : ℤ) : ℚ) / ((a + d - b - c : ℤ) : ℚ))
         else none)) ∧
    (∀ (im : ℤ → ℚ) (w h : ℕ) (x y : ℤ),
      fill_virtual_samples im w h x y =
        (let pos : ℤ := y * w + x
         let a := im pos
         let b := im (pos + 1)
         let c := im (pos + w)
         let d := im (pos + w + 1)
         if x + 1 < (w : ℤ) ∧ y + 1 < (h : ℤ) ∧ saddleSpecCond a b c d
         then (a * d - b * c) / (a + d - b - c)
         else -1)) :=
  ⟨fun im w h x y => level_saddle_char im w h x y,
   fun im w h x y => fill_virtual_samples_char im w h x y⟩

/-! ## Level-line tracer: the mobile dual pixel (levelLine.cpp)

Directions are S=0, E=1, N=2, W=3 as in the C++ `Dir`; all direction
arithmetic is done modulo 4, matching the `++_d>3` / `--_d<0` wraparounds
and the 5-entry `delta` table whose last entry repeats the first.
Points are pairs of exact rationals; the image is a total function from the
flat index `y*w+x` (as the C++ pointer arithmetic) to 8-bit values. -/

/-- Unit vector associated to each entry direction (`delta` table). -/
def delta (i : ℕ) : ℤ × ℤ :=
  if i % 4 = 0 then (0, 1)
  else if i % 4 = 1 then (1, 0)
  else if i % 4 = 2 then (0, -1)
  else (-1, 0)

/-- Integer point seen as a rational point. -/
def ptOfInt (p : ℤ × ℤ) : ℚ × ℚ := ((p.1 : ℚ), (p.2 : ℚ))

/-- Scalar multiple of an integer vector. -/
def ptScale (c : ℚ) (v : ℤ × ℤ) : ℚ × ℚ := (c * v.1, c * v.2)

/-- Levels at the 4 vertices of the dual pixel with top-left corner `pos`,
as loaded by `DualPixel::update_levels`: index 0 is the top-left data point,
1 bottom-left, 2 bottom-right, 3 top-right. -/
def levelAt (im : ℤ → ℕ) (w : ℕ) (pos : ℤ × ℤ) (i : ℕ) : ℕ :=
  let ind : ℤ := pos.2 * w + pos.1
  if i % 4 = 0 then im ind
  else if i % 4 = 1 then im (ind + w)
  else if i % 4 = 2 then im (ind + w + 1)
  else im (ind + 1)

/-- `linear(v0,v,v1)`: abscissa of value `v` on the segment from `(0,v0)` to
`(1,v1)`. -/
def linear (v0 v v1 : ℚ) : ℚ := (v - v0) / (v1 - v0)

/-- State of the mobile dual pixel: top-left corner, entry direction and
current point of the level line. -/
structure DualPixel where
  pos : ℤ × ℤ
  d : ℕ
  p : ℚ × ℚ
  deriving DecidableEq

/-- Embedding of the `DualPixel` constructor: entry assumed from the south;
if the level does not cross the top edgel downwards (`_level[_d]>l` and
`l>_level[(_d+3)%4]`), flip the entry to north, move the dual pixel one row
up, move the reference corner one column right; then place the start point
by linear interpolation on the entry edgel. -/
def dpInit (im : ℤ → ℕ) (w : ℕ) (p0 : ℤ × ℤ) (l : ℚ) : DualPixel :=
  if (levelAt im w p0 0 : ℚ) > l ∧ l > (levelAt im w p0 3 : ℚ) then
    let pos : ℤ × ℤ := (p0.1, p0.2 - 1)
    let pstart : ℤ × ℤ := (p0.1 + 1, p0.2)
    ⟨pos, 2, ptOfInt pstart +
      ptScale (linear (levelAt im w pos 2) l (levelAt im w pos 1)) (delta 3)⟩
  else
    ⟨p0, 0, ptOfInt p0 +
      ptScale (linear (levelAt im w p0 0) l (levelAt im w p0 3)) (delta 1)⟩

/-- Numerator and denominator of the saddle value as computed by the
`Hyperbola` constructor, with both negated when the denominator is negative
(so that the `l*denom < num` comparison works without division). -/
def hyperbolaND (L : ℕ → ℕ) : ℤ × ℤ :=
  let num : ℤ := (L 0 : ℤ) * L 2 - (L 1 : ℤ) * L 3
  let denom : ℤ := ((L 0 : ℤ) + L 2) - ((L 1 : ℤ) + L 3)
  if denom < 0 then (-num, -denom) else (num, denom)

/-- Embedding of `DualPixel::move`: decide the exit (left turn, right turn
or straight), using the saddle value `snum/sdenom` to disambiguate when both
turns are possible; update the direction, move the top-left corner along the
new entry direction, and compute the exit point by linear interpolation on
the exit edgel. -/
def move (im : ℤ → ℕ) (w : ℕ) (l : ℚ) (snum sdenom : ℤ) (pos : ℤ × ℤ)
    (d : ℕ) : DualPixel :=
  let L := levelAt im w pos
  let left0 : Prop := (L ((d + 2) % 4) : ℚ) < l
  let right0 : Prop := l < (L ((d + 1) % 4) : ℚ)
  let right : Prop := if left0 ∧ right0 then l * sdenom < snum else right0
  let left : Prop := if left0 ∧ right0 then ¬(l * sdenom < snum) else left0
  let d1 := if left then (d + 1) % 4 else d
  let d2 := if right then (d1 + 3) % 4 else d1
  let pos' := pos + delta d2
  let L' := levelAt im w pos'
  let coord := linear (L' d2) l (L' ((d2 + 3) % 4))
  let base := (List.range d2).foldl (fun q i => q + ptOfInt (delta i)) (ptOfInt pos')
  ⟨pos', d2, base + ptScale coord (delta (d2 + 1))⟩

instance (p q : Prop) [Decidable p] [Decidable q] : Decidable (if p ∧ q then p else q) := by
  split_ifs <;> infer_instance

/-- The invariant asserted at the top of `DualPixel::follow`: the level `l`
lies strictly between the image values at the two endpoints of the entry
edgel, `_level[_d] < l < _level[(_d+3)%4]`. -/
def EntryInv (im : ℤ → ℕ) (w : ℕ) (l : ℚ) (pos : ℤ × ℤ) (d : ℕ) : Prop :=
  (levelAt im w pos d : ℚ) < l ∧ l < (levelAt im w pos ((d + 3) % 4) : ℚ)

/-- Levels actually traced are never integers: regional extrema use
`level ± 1/512` and saddles the clamped `qlevel` quantization. -/
def NotIntegral (l : ℚ) : Prop := ∀ n : ℤ, l ≠ (n : ℚ)

/-- C7 counterexample image: values 0 everywhere except 10 at flat index 1. -/
def im7 : ℤ → ℕ := fun k => if k = 1 then 10 else 0

/-- C7. Counterexample to the claim as stated: with corner values 0 (entry
corner) and 10 (its predecessor) and level l = 20, the level does not lie
strictly between the two corner levels, yet the constructor does not flip
the entry direction to north: it keeps south (d = 0). -/
theorem C7_counterexample :
    ¬(min (levelAt im7 2 (0, 0) 0 : ℚ) (levelAt im7 2 (0, 0) 3) < 20 ∧
        (20 : ℚ) < max (levelAt im7 2 (0, 0) 0 : ℚ) (levelAt im7 2 (0, 0) 3)) ∧
      (dpInit im7 2 (0, 0) 20).d = 0 := by
  constructor
  · intro hcon
    have h0 : levelAt im7 2 (0, 0) 0 = 0 := rfl
    have h3 : levelAt im7 2 (0, 0) 3 = 10 := rfl
    rw [h0, h3] at hcon
    norm_num at hcon
  · rfl

/-- C7 (amended). The constructor flips the entry direction to north — and
shifts the dual pixel one row up and the reference corner one column right —
exactly when the level lies strictly between the entry corner's level and
its predecessor's level in the reversed order `_level[0] > l > _level[3]`;
in both branches the start point is placed by linear interpolation on the
resulting entry edgel. -/
theorem C7_amended_init (im : ℤ → ℕ) (w : ℕ) (p0 : ℤ × ℤ) (l : ℚ) :
    dpInit im w p0 l =
      if (levelAt im w p0 0 : ℚ) > l ∧ l > (levelAt im w p0 3 : ℚ) then
        ⟨(p0.1, p0.2 - 1), 2,
          ((p0.1 + 1 : ℚ) -
              (l - (levelAt im w (p0.1, p0.2 - 1) 2 : ℚ)) /
                ((levelAt im w (p0.1, p0.2 - 1) 1 : ℚ) -
                  (levelAt im w (p0.1, p0.2 - 1) 2 : ℚ)),
            (p0.2 : ℚ))⟩
      else
        ⟨p0, 0,
          ((p0.1 : ℚ) +
              (l - (levelAt im w p0 0 : ℚ)) /
                ((levelAt im w p0 3 : ℚ) - (levelAt im w p0 0 : ℚ)),
            (p0.2 : ℚ))⟩ := by
  unfold dpInit
  split_ifs with hflip
  · simp only [DualPixel.mk.injEq, ptOfInt, ptScale, delta, linear, Prod.mk_add_mk]
    norm_num
    ring
  · simp only [DualPixel.mk.injEq, ptOfInt, ptScale, delta, linear, Prod.mk_add_mk]
    norm_num

/-- The new top-left corner of `move` is the old one translated along the
new entry direction. -/
lemma move_pos_eq (im : ℤ → ℕ) (w : ℕ) (l : ℚ) (snum sdenom : ℤ)
    (pos : ℤ × ℤ) (d : ℕ) :
    (move im w l snum sdenom pos d).pos =
      pos + delta ((move im w l snum sdenom pos d).d) := rfl

/-- `move` takes a left turn with the left-exit condition true, a right turn
with the right-exit condition true, or goes straight with both false. -/
lemma move_d_cases (im : ℤ → ℕ) (w : ℕ) (l : ℚ) (snum sdenom : ℤ)
    (pos : ℤ × ℤ) (d : ℕ) :
    ((move im w l snum sdenom pos d).d = (d + 1) % 4 ∧
        (levelAt im w pos ((d + 2) % 4) : ℚ) < l) ∨
    ((move im w l snum sdenom pos d).d = (d + 3) % 4 ∧
        l < (levelAt im w pos ((d + 1) % 4) : ℚ)) ∨
    ((move im w l snum sdenom pos d).d = d ∧
        ¬((levelAt im w pos ((d + 2) % 4) : ℚ) < l) ∧
        ¬(l < (levelAt im w pos ((d + 1) % 4) : ℚ))) := by
  by_cases h1 : (levelAt im w pos ((d + 2) % 4) : ℚ) < l <;>
    by_cases h2 : l < (levelAt im w pos ((d + 1) % 4) : ℚ)
  · by_cases h3 : l * sdenom < snum
    · refine Or.inr (Or.inl ⟨?_, h2⟩)
      simp only [move, if_pos (And.intro h1 h2), if_pos h3, if_neg (not_not_intro h3)]
    · refine Or.inl ⟨?_, h1⟩
      simp only [move, if_pos (And.intro h1 h2), if_neg h3, if_pos h3]
  · refine Or.inl ⟨?_, h1⟩
    simp only [move, if_neg (fun hc : _ ∧ _ => h2 hc.2), if_pos h1, if_neg h2]
  · refine Or.inr (Or.inl ⟨?_, h2⟩)
    simp only [move, if_neg (fun hc : _ ∧ _ => h1 hc.1), if_pos h2, if_neg h1]
  · refine Or.inr (Or.inr ⟨?_, h1, h2⟩)
    simp only [move, if_neg (fun hc : _ ∧ _ => h1 hc.1), if_neg h2, if_neg h1]

/-- With both exit conditions true, `move` exits to the side chosen by the
saddle-value comparison. -/
lemma move_d_saddle (im : ℤ → ℕ) (w : ℕ) (l : ℚ) (snum sdenom : ℤ)
    (pos : ℤ × ℤ) (d : ℕ)
    (h1 : (levelAt im w pos ((d + 2) % 4) : ℚ) < l)
    (h2 : l < (levelAt im w pos ((d + 1) % 4) : ℚ)) :
    (move im w l snum sdenom pos d).d =
      (if l * sdenom < snum then (d + 3) % 4 else (d + 1) % 4) := by
  by_cases h3 : l * sdenom < snum
  · rw [if_pos h3]
    simp only [move, if_pos (And.intro h1 h2), if_pos h3,
      if_neg (not_not_intro h3)]
  · rw [if_neg h3]
    simp only [move, if_pos (And.intro h1 h2), if_neg h3, if_pos h3]

/-- C6. In `DualPixel::move`, whenever the left-exit condition (level above
the value at the corner opposite the entry) and the right-exit condition
(level below the value at the adjacent corner) hold simultaneously, the
normalized Hyperbola denominator is strictly positive and the walker exits
right (entry direction turned clockwise, `(d+3)%4`) if and only if
`l * denom < num`; otherwise it exits left (`(d+1)%4`). -/
theorem C6_saddle_disambiguation (im : ℤ → ℕ) (w : ℕ) (l : ℚ)
    (pos : ℤ × ℤ) (d : ℕ) (hd : d < 4)
    (hinv : EntryInv im w l pos d)
    (h1 : (levelAt im w pos ((d + 2) % 4) : ℚ) < l)
    (h2 : l < (levelAt im w pos ((d + 1) % 4) : ℚ)) :
    0 < (hyperbolaND (levelAt im w pos)).2 ∧
    ((move im w l (hyperbolaND (levelAt im w pos)).1
        (hyperbolaND (levelAt im w pos)).2 pos d).d = (d + 3) % 4 ↔
      l * (hyperbolaND (levelAt im w pos)).2 < (hyperbolaND (levelAt im w pos)).1) ∧
    ((move im w l (hyperbolaND (levelAt im w pos)).1
        (hyperbolaND (levelAt im w pos)).2 pos d).d = (d + 1) % 4 ↔
      ¬(l * (hyperbolaND (levelAt im w pos)).2 < (hyperbolaND (levelAt im w pos)).1)) := by
  rcases hinv with ⟨hlo, hhi⟩
  have hdenpos : 0 < (hyperbolaND (levelAt im w pos)).2 := by
    interval_cases d
    · norm_num at h1 h2 hlo hhi
      have hq : (levelAt im w pos 0 : ℚ) + (levelAt im w pos 2 : ℚ) <
          (levelAt im w pos 1 : ℚ) + (levelAt im w pos 3 : ℚ) := by linarith
      have hz : (levelAt im w pos 0 : ℤ) + (levelAt im w pos 2 : ℤ) <
          (levelAt im w pos 1 : ℤ) + (levelAt im w pos 3 : ℤ) := by
        exact_mod_cast hq
      unfold hyperbolaND
      rw [if_pos (by omega)]
      omega
    · norm_num at h1 h2 hlo hhi
      have hq : (levelAt im w pos 1 : ℚ) + (levelAt im w pos 3 : ℚ) <
          (levelAt im w pos 0 : ℚ) + (levelAt im w pos 2 : ℚ) := by linarith
      have hz : (levelAt im w pos 1 : ℤ) + (levelAt im w pos 3 : ℤ) <
          (levelAt im w pos 0 : ℤ) + (levelAt im w pos 2 : ℤ) := by
        exact_mod_cast hq
      unfold hyperbolaND
      rw [if_neg (by omega)]
      omega
    · norm_num at h1 h2 hlo hhi
      have hq : (levelAt im w pos 0 : ℚ) + (levelAt im w pos 2 : ℚ) <
          (levelAt im w pos 1 : ℚ) + (levelAt im w pos 3 : ℚ) := by linarith
      have hz : (levelAt im w pos 0 : ℤ) + (levelAt im w pos 2 : ℤ) <
          (levelAt im w pos 1 : ℤ) + (levelAt im w pos 3 : ℤ) := by
        exact_mod_cast hq
      unfold hyperbolaND
      rw [if_pos (by omega)]
      omega
    · norm_num at h1 h2 hlo hhi
      have hq : (levelAt im w pos 1 : ℚ) + (levelAt im w pos 3 : ℚ) <
          (levelAt im w pos 0 : ℚ) + (levelAt im w pos 2 : ℚ) := by linarith
      have hz : (levelAt im w pos 1 : ℤ) + (levelAt im w pos 3 : ℤ) <
          (levelAt im w pos 0 : ℤ) + (levelAt im w pos 2 : ℤ) := by
        exact_mod_cast hq
      unfold hyperbolaND
      rw [if_neg (by omega)]
      omega
  refine ⟨hdenpos, ?_, ?_⟩
  · rw [move_d_saddle im w l _ _ pos d h1 h2]
    split_ifs with h3
    · simp [h3]
    · simp only [h3, iff_false]
      omega
  · rw [move_d_saddle im w l _ _ pos d h1 h2]
    split_ifs with h3
    · simp only [h3, not_true_eq_false, iff_false]
      omega
    · simp [h3]

/-- C10. The dual-pixel walker maintains the invariant asserted at the top
of `DualPixel::follow`: the level `l` lies strictly between the image values
at the endpoints of the entry edgel, `_level[_d] < l < _level[(_d+3)%4]`.
It is established by the `DualPixel` constructor whenever the start point
lies on an edgel actually crossed by the level (the constructor's contract),
and it is preserved by every `move` for the non-integral levels the tracer
uses — so the assertion in `follow` never fails. -/
theorem C10_entry_invariant (im : ℤ → ℕ) (w : ℕ) (l : ℚ) :
    (∀ p0 : ℤ × ℤ,
      (((levelAt im w p0 0 : ℚ) < l ∧ l < (levelAt im w p0 3 : ℚ)) ∨
        ((levelAt im w p0 3 : ℚ) < l ∧ l < (levelAt im w p0 0 : ℚ))) →
      EntryInv im w l (dpInit im w p0 l).pos (dpInit im w p0 l).d) ∧
    (∀ (pos : ℤ × ℤ) (d : ℕ) (snum sdenom : ℤ), d < 4 → NotIntegral l →
      EntryInv im w l pos d →
      EntryInv im w l (move im w l snum sdenom pos d).pos
        (move im w l snum sdenom pos d).d) := by
  constructor
  · intro p0 hstart
    unfold dpInit
    by_cases hflip : (levelAt im w p0 0 : ℚ) > l ∧ l > (levelAt im w p0 3 : ℚ)
    · rw [if_pos hflip]
      rcases hflip with ⟨hf1, hf2⟩
      simp only [EntryInv, levelAt] at hf1 hf2 ⊢
      norm_num at hf1 hf2 ⊢
      ring_nf at hf1 hf2 ⊢
      exact ⟨by linarith, by linarith⟩
    · rw [if_neg hflip]
      have hord : (levelAt im w p0 0 : ℚ) < l ∧ l < (levelAt im w p0 3 : ℚ) := by
        rcases hstart with h | h
        · exact h
        · exact absurd ⟨h.2, h.1⟩ hflip
      rcases hord with ⟨hf1, hf2⟩
      simp only [EntryInv, levelAt] at hf1 hf2 ⊢
      norm_num at hf1 hf2 ⊢
      exact ⟨hf1, hf2⟩
  · intro pos d snum sdenom hd hni hinv
    rcases move_d_cases im w l snum sdenom pos d with
      ⟨hde, hcond⟩ | ⟨hde, hcond⟩ | ⟨hde, hc1, hc2⟩
    · rw [EntryInv, move_pos_eq, hde]
      rcases hinv with ⟨hi1, hi2⟩
      interval_cases d <;>
        · simp only [levelAt, delta, Prod.fst_add, Prod.snd_add] at hi1 hi2 hcond ⊢
          norm_num at hi1 hi2 hcond ⊢
          ring_nf at hi1 hi2 hcond ⊢
          exact ⟨by linarith, by linarith⟩
    · rw [EntryInv, move_pos_eq, hde]
      rcases hinv with ⟨hi1, hi2⟩
      interval_cases d <;>
        · simp only [levelAt, delta, Prod.fst_add, Prod.snd_add] at hi1 hi2 hcond ⊢
          norm_num at hi1 hi2 hcond ⊢
          ring_nf at hi1 hi2 hcond ⊢
          exact ⟨by linarith, by linarith⟩
    · have hs1 : (levelAt im w pos ((d + 1) % 4) : ℚ) < l := by
        refine lt_of_le_of_ne (not_lt.1 hc2) (fun hh => ?_)
        have hn := hni ((levelAt im w pos ((d + 1) % 4) : ℕ) : ℤ)
        push_cast at hn
        exact hn hh.symm
      have hs2 : l < (levelAt im w pos ((d + 2) % 4) : ℚ) := by
        refine lt_of_le_of_ne (not_lt.1 hc1) (fun hh => ?_)
        have hn := hni ((levelAt im w pos ((d + 2) % 4) : ℕ) : ℤ)
        push_cast at hn
        exact hn hh
      rw [EntryInv, move_pos_eq, hde]
      rcases hinv with ⟨hi1, hi2⟩
      interval_cases d <;>
        · simp only [levelAt, delta, Prod.fst_add, Prod.snd_add] at hs1 hs2 ⊢
          norm_num at hs1 hs2 ⊢
          ring_nf at hs1 hs2 ⊢
          exact ⟨by linarith, by linarith⟩

/-! ## The tracing loop of `extract` (C5)

State of one iteration of `while(true){ line.push(p); if(!mark_visit) break;
follow(...); }`. The emitted polyline and the optional row-intersection log
are omitted: they do not influence control flow (and hyperbola interior
samples involve floating-point `sqrt`, outside this embedding). -/

structure WalkState where
  pos : ℤ × ℤ
  d : ℕ
  p : ℚ × ℚ
  visit : ℤ → Bool

/-- Setting one cell of the shared `visit` array. -/
def updB (f : ℤ → Bool) (k : ℤ) : ℤ → Bool := fun j => if j = k then true else f j

/-- Index of the oriented horizontal edgel marked by `mark_visit`:
`_pos.y*_w+_pos.x`, plus `w` when the entry is from the north. -/
def edgelIndex (w : ℕ) (pos : ℤ × ℤ) (d : ℕ) : ℤ :=
  pos.2 * w + pos.1 + (if d = 2 then (w : ℤ) else 0)

/-- One iteration of the tracing loop: `mark_visit` — when the entry
direction is vertical (S or N), check and set the visit bit of the oriented
horizontal edgel — break (`none`) if the bit was already set, else `follow`:
build the hyperbola of the current dual pixel and `move` to the adjacent
dual pixel. -/
def stepW (im : ℤ → ℕ) (w : ℕ) (l : ℚ) (σ : WalkState) : Option WalkState :=
  if σ.d = 0 ∨ σ.d = 2 then
    if σ.visit (edgelIndex w σ.pos σ.d) = true then none
    else
      some ⟨(move im w l (hyperbolaND (levelAt im w σ.pos)).1
               (hyperbolaND (levelAt im w σ.pos)).2 σ.pos σ.d).pos,
            (move im w l (hyperbolaND (levelAt im w σ.pos)).1
               (hyperbolaND (levelAt im w σ.pos)).2 σ.pos σ.d).d,
            (move im w l (hyperbolaND (levelAt im w σ.pos)).1
               (hyperbolaND (levelAt im w σ.pos)).2 σ.pos σ.d).p,
            updB σ.visit (edgelIndex w σ.pos σ.d)⟩
  else
    some ⟨(move im w l (hyperbolaND (levelAt im w σ.pos)).1
             (hyperbolaND (levelAt im w σ.pos)).2 σ.pos σ.d).pos,
          (move im w l (hyperbolaND (levelAt im w σ.pos)).1
             (hyperbolaND (levelAt im w σ.pos)).2 σ.pos σ.d).d,
          (move im w l (hyperbolaND (levelAt im w σ.pos)).1
             (hyperbolaND (levelAt im w σ.pos)).2 σ.pos σ.d).p,
          σ.visit⟩

/-- Iterating the tracing loop, `none` once the loop has broken. -/
def runW (im : ℤ → ℕ) (w : ℕ) (l : ℚ) (σ0 : WalkState) : ℕ → Option WalkState
  | 0 => some σ0
  | n + 1 => (runW im w l σ0 n).bind (stepW im w l)

/-- The walker stays inside the image: the dual pixel reads the four data
points at `pos` .. `pos+(1,1)`, and the direction is one of S,E,N,W. -/
def InB (w h : ℕ) (σ : WalkState) : Prop :=
  0 ≤ σ.pos.1 ∧ σ.pos.1 + 1 < w ∧ 0 ≤ σ.pos.2 ∧ σ.pos.2 + 1 < h ∧ σ.d < 4

/-- Number of unset visit bits among the `w*h` oriented horizontal edgels. -/
def unsetCount (w h : ℕ) (v : ℤ → Bool) : ℕ :=
  ((Finset.range (w * h)).filter (fun i : ℕ => v (i : ℤ) = false)).card

/-- Steps a horizontal run can still take before leaving the image. -/
def slack (w : ℕ) (σ : WalkState) : ℕ :=
  if σ.d = 1 then (w - σ.pos.1).toNat
  else if σ.d = 3 then (σ.pos.1 + 1).toNat else 0

/-- Termination measure of the tracing loop. -/
def measureW (w h : ℕ) (σ : WalkState) : ℕ :=
  unsetCount w h σ.visit * (w + h + 2) + slack w σ

lemma runW_succ_head (im : ℤ → ℕ) (w : ℕ) (l : ℚ) (σ0 : WalkState) (n : ℕ) :
    runW im w l σ0 (n + 1) =
      (stepW im w l σ0).bind (fun σ1 => runW im w l σ1 n) := by
  induction n with
  | zero =>
    cases h : stepW im w l σ0 with
    | none => simp [runW, h]
    | some σ1 => simp [runW, h]
  | succ n ih =>
    show (runW im w l σ0 (n + 1)).bind _ = _
    rw [ih]
    cases h : stepW im w l σ0 with
    | none => rfl
    | some σ1 => rfl

lemma runW_none_le (im : ℤ → ℕ) (w : ℕ) (l : ℚ) (σ0 : WalkState) {n m : ℕ}
    (hnm : n ≤ m) (hn : runW im w l σ0 n = none) : runW im w l σ0 m = none := by
  induction m with
  | zero =>
    have : n = 0 := Nat.le_zero.1 hnm
    rw [this] at hn; exact hn
  | succ m ih =>
    rcases Nat.lt_or_ge n (m + 1) with h | h
    · have := ih (Nat.lt_succ_iff.1 h)
      show (runW im w l σ0 m).bind _ = none
      rw [this]; rfl
    · have : n = m + 1 := le_antisymm hnm h
      rw [this] at hn; exact hn

lemma stepW_visit_mono (im : ℤ → ℕ) (w : ℕ) (l : ℚ) {σ σ' : WalkState}
    (h : stepW im w l σ = some σ') {k : ℤ} (hk : σ.visit k = true) :
    σ'.visit k = true := by
  unfold stepW at h
  split_ifs at h with hv hb
  all_goals first
    | (obtain rfl := Option.some_inj.1 h; exact hk)
    | (obtain rfl := Option.some_inj.1 h
       show updB σ.visit (edgelIndex w σ.pos σ.d) k = true
       unfold updB
       split_ifs <;> simp [hk])
    | exact Option.noConfusion h

lemma runW_visit_mono (im : ℤ → ℕ) (w : ℕ) (l : ℚ) (σ0 : WalkState)
    {i j : ℕ} (hij : i ≤ j) {σi σj : WalkState}
    (hi : runW im w l σ0 i = some σi) (hj : runW im w l σ0 j = some σj)
    {k : ℤ} (hk : σi.visit k = true) : σj.visit k = true := by
  induction j generalizing σj with
  | zero =>
    have : i = 0 := Nat.le_zero.1 hij
    rw [this, hj] at hi
    cases hi
    exact hk
  | succ j ih =>
    rcases Nat.lt_or_ge i (j + 1) with h | h
    · have hbind : (runW im w l σ0 j).bind (stepW im w l) = some σj := hj
      rcases Option.bind_eq_some.1 hbind with ⟨σmid, hmid, hstep⟩
      exact stepW_visit_mono im w l hstep (ih (Nat.lt_succ_iff.1 h) hmid)
    · have : i = j + 1 := le_antisymm hij h
      rw [this, hj] at hi
      cases hi
      exact hk

lemma stepW_vert_none_iff (im : ℤ → ℕ) (w : ℕ) (l : ℚ) (σ : WalkState)
    (hv : σ.d = 0 ∨ σ.d = 2) :
    stepW im w l σ = none ↔ σ.visit (edgelIndex w σ.pos σ.d) = true := by
  unfold stepW
  rw [if_pos hv]
  split_ifs with hb
  · simp [hb]
  · simp [hb]

lemma stepW_sets_bit (im : ℤ → ℕ) (w : ℕ) (l : ℚ) {σ σ' : WalkState}
    (hv : σ.d = 0 ∨ σ.d = 2) (hstep : stepW im w l σ = some σ') :
    σ'.visit (edgelIndex w σ.pos σ.d) = true := by
  unfold stepW at hstep
  rw [if_pos hv] at hstep
  split_ifs at hstep with hb
  obtain rfl := Option.some_inj.1 hstep
  show updB σ.visit (edgelIndex w σ.pos σ.d) (edgelIndex w σ.pos σ.d) = true
  unfold updB
  rw [if_pos rfl]

lemma stepW_horiz_some (im : ℤ → ℕ) (w : ℕ) (l : ℚ) (σ : WalkState)
    (hv : ¬(σ.d = 0 ∨ σ.d = 2)) : stepW im w l σ ≠ none := by
  unfold stepW
  rw [if_neg hv]
  simp

lemma unsetCount_updB_lt (w h : ℕ) (v : ℤ → Bool) (i : ℤ)
    (hv : v i = false) (h0 : 0 ≤ i) (hw : i < ((w * h : ℕ) : ℤ)) :
    unsetCount w h (updB v i) < unsetCount w h v := by
  have hsub : (Finset.range (w * h)).filter (fun a : ℕ => updB v i (a : ℤ) = false) ⊆
      (Finset.range (w * h)).filter (fun a : ℕ => v (a : ℤ) = false) := by
    intro a ha
    simp only [Finset.mem_filter, Finset.mem_range] at ha ⊢
    refine ⟨ha.1, ?_⟩
    have h2 := ha.2
    unfold updB at h2
    split_ifs at h2 with he
    exact h2
  apply Finset.card_lt_card
  rw [Finset.ssubset_iff_of_subset hsub]
  refine ⟨i.toNat, ?_, ?_⟩
  · simp only [Finset.mem_filter, Finset.mem_range]
    constructor
    · omega
    · rw [Int.toNat_of_nonneg h0]
      exact hv
  · simp only [Finset.mem_filter, Finset.mem_range, not_and]
    intro _
    rw [Int.toNat_of_nonneg h0]
    unfold updB
    rw [if_pos rfl]
    simp

lemma slack_lt (w h : ℕ) (σ : WalkState) (hin : InB w h σ) :
    slack w σ < w + h + 2 := by
  rcases hin with ⟨h1, h2, h3, h4, h5⟩
  unfold slack
  split_ifs <;> omega

lemma unsetCount_le (w h : ℕ) (v : ℤ → Bool) : unsetCount w h v ≤ w * h := by
  calc unsetCount w h v ≤ (Finset.range (w * h)).card := Finset.card_filter_le _ _
    _ = w * h := Finset.card_range _

/-- Every continuing iteration strictly decreases the termination measure:
a vertical entry sets a fresh visit bit, a horizontal entry either advances
the straight run by one dual pixel or turns to a vertical entry. -/
lemma stepW_measure_lt (im : ℤ → ℕ) (w h : ℕ) (l : ℚ) {σ σ' : WalkState}
    (hin : InB w h σ) (hin' : InB w h σ')
    (hstep : stepW im w l σ = some σ') :
    measureW w h σ' < measureW w h σ := by
  have hK := slack_lt w h σ' hin'
  unfold stepW at hstep
  split_ifs at hstep with hv hb
  · -- vertical entry, fresh bit: the unset count decreases
    obtain rfl := Option.some_inj.1 hstep
    have hvfalse : σ.visit (edgelIndex w σ.pos σ.d) = false := by
      revert hb; cases σ.visit (edgelIndex w σ.pos σ.d) <;> simp
    have hrange : 0 ≤ edgelIndex w σ.pos σ.d ∧
        edgelIndex w σ.pos σ.d < ((w * h : ℕ) : ℤ) := by
      rcases hin with ⟨h1, h2, h3, h4, h5⟩
      unfold edgelIndex
      rcases hv with hd | hd <;> rw [hd] <;> push_cast <;> constructor <;> nlinarith
    have hcount : unsetCount w h (updB σ.visit (edgelIndex w σ.pos σ.d)) <
        unsetCount w h σ.visit :=
      unsetCount_updB_lt w h σ.visit _ hvfalse hrange.1 hrange.2
    have hmul : (unsetCount w h (updB σ.visit (edgelIndex w σ.pos σ.d)) + 1) *
        (w + h + 2) ≤ unsetCount w h σ.visit * (w + h + 2) :=
      Nat.mul_le_mul_right _ (Nat.succ_le_of_lt hcount)
    unfold measureW
    dsimp only
    nlinarith [hK, hmul]
  · -- horizontal entry: unset count unchanged, slack decreases
    obtain rfl := Option.some_inj.1 hstep
    have hdval : σ.d = 1 ∨ σ.d = 3 := by
      rcases hin with ⟨_, _, _, _, h5⟩
      omega
    rcases move_d_cases im w l (hyperbolaND (levelAt im w σ.pos)).1
        (hyperbolaND (levelAt im w σ.pos)).2 σ.pos σ.d with
      ⟨hde, _⟩ | ⟨hde, _⟩ | ⟨hde, _, _⟩
    all_goals (
      unfold measureW
      dsimp only
      apply Nat.add_lt_add_left
      rcases hin with ⟨h1, h2, h3, h4, h5⟩
      rcases hdval with hd | hd <;>
        · unfold slack
          rw [move_pos_eq, hde, hd]
          norm_num [delta, Prod.fst_add]
          omega)

/-- Strong induction on the measure: with the walker staying in bounds, the
loop breaks within `measureW + 1` iterations. -/
lemma runW_halts (im : ℤ → ℕ) (w h : ℕ) (l : ℚ) :
    ∀ (N : ℕ) (σ0 : WalkState),
      (∀ n σ, runW im w l σ0 n = some σ → InB w h σ) →
      measureW w h σ0 < N → runW im w l σ0 N = none := by
  intro N
  induction N with
  | zero => intro σ0 _ hm; exact absurd hm (Nat.not_lt_zero _)
  | succ N ih =>
    intro σ0 H hm
    rw [runW_succ_head]
    cases hstep : stepW im w l σ0 with
    | none => rfl
    | some σ1 =>
      have hrun1 : runW im w l σ0 1 = some σ1 := by
        show (runW im w l σ0 0).bind _ = some σ1
        simp [runW, hstep]
      have hin0 : InB w h σ0 := H 0 σ0 rfl
      have hin1 : InB w h σ1 := H 1 σ1 hrun1
      have hlt := stepW_measure_lt im w h l hin0 hin1 hstep
      show runW im w l σ1 N = none
      apply ih σ1
      · intro n σ hn
        apply H (n + 1) σ
        rw [runW_succ_head, hstep]
        exact hn
      · omega

/-- C5. Mechanism and termination of the tracing loop started by `extract`
(under the well-formedness hypothesis that the walker stays inside the
image). First conjunct: on a vertical entry (S or N) the step checks and
sets the visit bit of its oriented horizontal edgel — it breaks exactly when
the bit was already set and otherwise continues with the bit now set — and a
horizontal entry never breaks the loop. Second: the loop halts within
`(w*h+1)*(w+h+2)` iterations. Third: two distinct continuing iterations
with vertical entries always mark distinct oriented horizontal edgels, so an
emitted level line traverses each oriented horizontal edgel at most once. -/
theorem C5_trace_terminates (im : ℤ → ℕ) (w h : ℕ) (l : ℚ) (σ0 : WalkState)
    (H : ∀ n σ, runW im w l σ0 n = some σ → InB w h σ) :
    (∀ σ : WalkState,
      ((σ.d = 0 ∨ σ.d = 2) →
        (stepW im w l σ = none ↔ σ.visit (edgelIndex w σ.pos σ.d) = true) ∧
        (∀ σ', stepW im w l σ = some σ' →
          σ'.visit (edgelIndex w σ.pos σ.d) = true)) ∧
      (¬(σ.d = 0 ∨ σ.d = 2) → stepW im w l σ ≠ none)) ∧
    runW im w l σ0 ((w * h + 1) * (w + h + 2)) = none ∧
    (∀ i j σi σj, i < j →
      runW im w l σ0 i = some σi → runW im w l σ0 j = some σj →
      (σi.d = 0 ∨ σi.d = 2) → (σj.d = 0 ∨ σj.d = 2) →
      stepW im w l σi ≠ none → stepW im w l σj ≠ none →
      edgelIndex w σi.pos σi.d ≠ edgelIndex w σj.pos σj.d) := by
  refine ⟨?_, ?_, ?_⟩
  · intro σ
    exact ⟨fun hv => ⟨stepW_vert_none_iff im w l σ hv,
        fun σ' h => stepW_sets_bit im w l hv h⟩,
      fun hv => stepW_horiz_some im w l σ hv⟩
  · apply runW_halts im w h l _ σ0 H
    have h1 : unsetCount w h σ0.visit ≤ w * h := unsetCount_le w h σ0.visit
    have h2 : slack w σ0 < w + h + 2 := slack_lt w h σ0 (H 0 σ0 rfl)
    unfold measureW
    nlinarith [h1, h2]
  · intro i j σi σj hij hi hj hvi hvj hsi hsj
    rcases Option.ne_none_iff_exists'.1 hsi with ⟨σi', hstepi⟩
    have hseti : σi'.visit (edgelIndex w σi.pos σi.d) = true :=
      stepW_sets_bit im w l hvi hstepi
    have hruni1 : runW im w l σ0 (i + 1) = some σi' := by
      show (runW im w l σ0 i).bind _ = some σi'
      rw [hi]
      exact hstepi
    have hsetj : σj.visit (edgelIndex w σi.pos σi.d) = true :=
      runW_visit_mono im w l σ0 (Nat.succ_le_of_lt hij) hruni1 hj hseti
    intro heq
    have hfalse : ¬(σj.visit (edgelIndex w σj.pos σj.d) = true) := by
      intro hset
      exact hsj ((stepW_vert_none_iff im w l σj hvj).2 hset)
    rw [heq] at hsetj
    exact hfalse hsetj

/-- Concrete 2x2 image used by the walker witnesses: corner values 0
(top-left), 10 (top-right), 9 (bottom-left), 1 (bottom-right). -/
def im6w : ℤ → ℕ := fun k => if k = 0 then 0 else if k = 1 then 10 else if k = 2 then 9 else 1

/-- C5 witness: a concrete in-bounds start whose visit bit is already set;
the loop halts within the stated bound. -/
theorem C5_trace_terminates_witness :
    runW (fun _ => 0) 3 (1/2) ⟨(1, 1), 0, (0, 0), fun _ => true⟩
      ((3 * 3 + 1) * (3 + 3 + 2)) = none := by
  have H : ∀ n σ, runW (fun _ => 0) 3 (1/2) ⟨(1, 1), 0, (0, 0), fun _ => true⟩ n =
      some σ → InB 3 3 σ := by
    intro n σ hn
    cases n with
    | zero =>
      obtain rfl := Option.some_inj.1 hn
      exact ⟨by norm_num, by norm_num, by norm_num, by norm_num, by norm_num⟩
    | succ n =>
      rw [runW_succ_head,
        (stepW_vert_none_iff _ 3 (1/2) _ (Or.inl rfl)).2 rfl] at hn
      exact Option.noConfusion hn
  exact (C5_trace_terminates (fun _ => 0) 3 3 (1/2) _ H).2.1

/-- C6 witness: at the 2x2 corner values (0,10,9,1) with level 5 both exit
conditions hold; the normalized denominator is positive and the exit is
determined by the `l*denom < num` comparison. -/
theorem C6_saddle_disambiguation_witness :
    0 < (hyperbolaND (levelAt im6w 2 (0, 0))).2 ∧
    ((move im6w 2 5 (hyperbolaND (levelAt im6w 2 (0, 0))).1
        (hyperbolaND (levelAt im6w 2 (0, 0))).2 (0, 0) 0).d = (0 + 3) % 4 ↔
      5 * ((hyperbolaND (levelAt im6w 2 (0, 0))).2 : ℚ) <
        ((hyperbolaND (levelAt im6w 2 (0, 0))).1 : ℚ)) ∧
    ((move im6w 2 5 (hyperbolaND (levelAt im6w 2 (0, 0))).1
        (hyperbolaND (levelAt im6w 2 (0, 0))).2 (0, 0) 0).d = (0 + 1) % 4 ↔
      ¬(5 * ((hyperbolaND (levelAt im6w 2 (0, 0))).2 : ℚ) <
        ((hyperbolaND (levelAt im6w 2 (0, 0))).1 : ℚ))) :=
  C6_saddle_disambiguation im6w 2 5 (0, 0) 0 (by norm_num)
    ⟨by norm_num [EntryInv, levelAt, im6w], by norm_num [EntryInv, levelAt, im6w]⟩
    (by norm_num [levelAt, im6w]) (by norm_num [levelAt, im6w])

/-- C10 witness: the invariant holds after initialization at level 1/2 on
the 2x2 witness image, and is preserved by a concrete move. -/
theorem C10_entry_invariant_witness :
    EntryInv im6w 2 (1/2) (dpInit im6w 2 (0, 0) (1/2)).pos
      (dpInit im6w 2 (0, 0) (1/2)).d ∧
    EntryInv im6w 2 (1/2) (move im6w 2 (1/2) 0 1 (0, 0) 0).pos
      (move im6w 2 (1/2) 0 1 (0, 0) 0).d := by
  have hni : NotIntegral (1/2 : ℚ) := by
    intro n hn
    have h2 : (1 : ℚ) = 2 * (n : ℚ) := by
      rw [div_eq_iff (by norm_num : (2:ℚ) ≠ 0)] at hn
      linarith
    have h3 : (1 : ℤ) = 2 * n := by exact_mod_cast h2
    omega
  have hC := C10_entry_invariant im6w 2 (1/2)
  exact ⟨hC.1 (0, 0) (Or.inl ⟨by norm_num [levelAt, im6w], by norm_num [levelAt, im6w]⟩),
    hC.2 (0, 0) 0 0 1 (by norm_num) hni
      ⟨by norm_num [EntryInv, levelAt, im6w], by norm_num [EntryInv, levelAt, im6w]⟩⟩

/-! ## Persistence engine (persistence.cpp)

Samples carry `short` coordinates and a kind; the default-constructed
`Sample()` is `(-1,-1,true)`, recognized by `x < 0`. The two parallel
arrays `par` and `zpar` over the `2*w*h` flat indices become functions
`ℤ → Sample` updated pointwise. The float image is embedded as exact
rationals. -/

structure Sample where
  x : ℤ
  y : ℤ
  real : Bool
  deriving DecidableEq

/-- Default-constructed `Sample()`: the unset marker. -/
def Sample.unset : Sample := ⟨-1, -1, true⟩

/-- `idx(p,w,h)`: flat index of a sample in the doubled array (virtual
samples are offset by `h` rows). -/
def sidx (w h : ℕ) (p : Sample) : ℤ :=
  p.x + (if p.real then p.y else p.y + h) * w

/-- `Sample::operator<`: real samples first, then by `(y,x)`. -/
def sampleLt (p q : Sample) : Prop :=
  if p.real ≠ q.real then p.real = true
  else p.y < q.y ∨ (p.y = q.y ∧ p.x < q.x)

instance (p q : Sample) : Decidable (sampleLt p q) := by
  unfold sampleLt; infer_instance

/-- The combined value array `im` of `persistence`: the first `w*h` entries
are the input image, the next `w*h` the virtual-sample grid computed by
`fill_virtual_samples`. -/
def imFull (im0 : ℤ → ℚ) (w h : ℕ) : ℤ → ℚ := fun k =>
  if k < ((w * h : ℕ) : ℤ) then im0 k
  else fill_virtual_samples im0 w h ((k - (w * h : ℕ)) % w) ((k - (w * h : ℕ)) / w)

/-- Value of a sample in the combined array. -/
def sval (im0 : ℤ → ℚ) (w h : ℕ) (p : Sample) : ℚ :=
  imFull im0 w h (sidx w h p)

/-- `CompareSamples`: order samples by value, ties broken by
`Sample::operator<`. -/
def cmpS (im0 : ℤ → ℚ) (w h : ℕ) (p q : Sample) : Prop :=
  sval im0 w h p < sval im0 w h q ∨
    (sval im0 w h p = sval im0 w h q ∧ sampleLt p q)

instance (im0 : ℤ → ℚ) (w h : ℕ) (p q : Sample) :
    Decidable (cmpS im0 w h p q) := by
  unfold cmpS; infer_instance

/-- Boolean total preorder used to embed `std::sort` with strict comparator
`cmpS`: `p` may come before `q` iff `¬ cmpS q p`. -/
def leS (im0 : ℤ → ℚ) (w h : ℕ) (p q : Sample) : Bool :=
  decide (¬ cmpS im0 w h q p)

/-- The `2*w*h` samples in construction order: real samples in scan order,
then virtual samples in scan order. -/
def allSamples (w h : ℕ) : List Sample :=
  ((List.range h).bind fun y => (List.range w).map fun x : ℕ =>
    (⟨(x : ℤ), (y : ℤ), true⟩ : Sample)) ++
  ((List.range h).bind fun y => (List.range w).map fun x : ℕ =>
    (⟨(x : ℤ), (y : ℤ), false⟩ : Sample))

/-- Insert into a sorted list (structurally recursive, so that concrete runs
reduce inside the kernel). -/
def insertSorted (le : α → α → Bool) (a : α) : List α → List α
  | [] => [a]
  | b :: rest => if le a b then a :: b :: rest else b :: insertSorted le a rest

/-- Insertion sort. The `std::sort` comparators used by the engine are
strict total orders, so the sorted permutation is unique and any sorting
algorithm embeds `std::sort` faithfully. -/
def sortBy (le : α → α → Bool) : List α → List α
  | [] => []
  | a :: rest => insertSorted le a (sortBy le rest)

lemma insertSorted_perm (le : α → α → Bool) (a : α) (l : List α) :
    List.Perm (insertSorted le a l) (a :: l) := by
  induction l with
  | nil => exact List.Perm.refl _
  | cons b rest ih =>
    unfold insertSorted
    split_ifs
    · exact List.Perm.refl _
    · exact List.Perm.trans (List.Perm.cons b ih) (List.Perm.swap a b rest)

lemma sortBy_perm (le : α → α → Bool) (l : List α) :
    List.Perm (sortBy le l) l := by
  induction l with
  | nil => exact List.Perm.refl _
  | cons a rest ih =>
    exact List.Perm.trans (insertSorted_perm le a (sortBy le rest))
      (List.Perm.cons a ih)

lemma mem_sortBy (le : α → α → Bool) (l : List α) (x : α) :
    x ∈ sortBy le l ↔ x ∈ l :=
  (sortBy_perm le l).mem_iff

lemma pairwise_insertSorted (le : α → α → Bool)
    (htr : ∀ a b c, le a b = true → le b c = true → le a c = true)
    (hto : ∀ a b, le a b = true ∨ le b a = true) (a : α) (l : List α)
    (hl : l.Pairwise (fun x y => le x y = true)) :
    (insertSorted le a l).Pairwise (fun x y => le x y = true) := by
  induction l with
  | nil => exact List.pairwise_singleton _ _
  | cons b rest ih =>
    rcases List.pairwise_cons.1 hl with ⟨hb, hrest⟩
    unfold insertSorted
    split_ifs with hab
    · refine List.pairwise_cons.2 ⟨?_, hl⟩
      intro x hx
      rcases List.mem_cons.1 hx with rfl | hx
      · exact hab
      · exact htr a b x hab (hb x hx)
    · have hba : le b a = true := by
        rcases hto a b with hc | hc
        · exact absurd hc hab
        · exact hc
      refine List.pairwise_cons.2 ⟨?_, ih hrest⟩
      intro x hx
      have := (insertSorted_perm le a rest).mem_iff.1 hx
      rcases List.mem_cons.1 this with rfl | hx2
      · exact hba
      · exact hb x hx2

lemma pairwise_sortBy (le : α → α → Bool)
    (htr : ∀ a b c, le a b = true → le b c = true → le a c = true)
    (hto : ∀ a b, le a b = true ∨ le b a = true) (l : List α) :
    (sortBy le l).Pairwise (fun x y => le x y = true) := by
  induction l with
  | nil => exact List.Pairwise.nil
  | cons a rest ih => exact pairwise_insertSorted le htr hto a (sortBy le rest) ih

/-- `std::sort(orderedPos, end, cmp)`. -/
def orderedPos (im0 : ℤ → ℚ) (w h : ℕ) : List Sample :=
  sortBy (leS im0 w h) (allSamples w h)

/-- The `dumb` sentinel sample: bottom-right cell of the virtual grid,
always carrying `-1`. -/
def dumb (w h : ℕ) : Sample := ⟨(w : ℤ) - 1, (h : ℤ) - 1, false⟩

/-- Samples processed by the union-find sweep: `std::upper_bound` on `dumb`
in the sorted array skips the prefix of samples not strictly greater than
`dumb`. -/
def processedList (im0 : ℤ → ℚ) (w h : ℕ) : List Sample :=
  (orderedPos im0 w h).dropWhile fun s => !(decide (cmpS im0 w h (dumb w h) s))

/-- Neighbor offset tables `dx`, `dy` of persistence.cpp (stored as `float`
there, with exact small integer values). -/
def dxT : List ℤ := [1, 0, -1, 0, 1, -1, 1, -1, 0, 0, 1, 1]

/-- See `dxT`. -/
def dyT : List ℤ := [0, 1, 0, -1, 1, 1, -1, -1, 0, 1, 0, 1]

/-- Path-compressing `root`, with fuel (the C++ recursion terminates because
`zpar` chains strictly increase in processing order; any fuel at least the
chain length gives the same result). Returns the updated `zpar` and the
root's index. -/
def rootF (w h : ℕ) : ℕ → (ℤ → Sample) → ℤ → ((ℤ → Sample) × ℤ)
  | 0, z, k => (z, k)
  | fuel + 1, z, k =>
    let k2 := sidx w h (z k)
    if k2 = k then (z, k)
    else
      let r := rootF w h fuel z k2
      (fun j => if j = k then r.1 r.2 else r.1 j, r.2)

/-- The body of the neighbor loop in the stage-3 sweep, processing neighbor
`i` of the current sample `p`: skip out-of-range or unprocessed neighbors,
else find the root of the neighbor's component (with path compression kept)
and attach it to `p` unless it already is `p`'s own slot. -/
def unionNb (w h : ℕ) (p : Sample) (st2 : (ℤ → Sample) × (ℤ → Sample))
    (i : ℕ) : (ℤ → Sample) × (ℤ → Sample) :=
  let k0 := sidx w h p
  let i0 := if p.real then 0 else 8
  let x := p.x + dxT.getD (i0 + i) 0
  let y := p.y + dyT.getD (i0 + i) 0
  if x < 0 ∨ (w : ℤ) ≤ x ∨ y < 0 ∨ (h : ℤ) ≤ y then st2
  else
    let k := sidx w h ⟨x, y, decide (i < 4)⟩
    if (st2.2 k).x < 0 then st2
    else
      let r := rootF w h (2 * (w * h) + 1) st2.2 k
      if r.2 = k0 then (st2.1, r.1)
      else ((fun j => if j = r.2 then p else st2.1 j),
            (fun j => if j = r.2 then p else r.1 j))

/-- One iteration of the stage-3 union-find sweep, processing sample `p`:
set `par[p] = zpar[p] = p`, then run the neighbor loop. -/
def unionStep (w h : ℕ) (st : (ℤ → Sample) × (ℤ → Sample)) (p : Sample) :
    (ℤ → Sample) × (ℤ → Sample) :=
  let k0 := sidx w h p
  let st1 : (ℤ → Sample) × (ℤ → Sample) :=
    ((fun j => if j = k0 then p else st.1 j),
     (fun j => if j = k0 then p else st.2 j))
  (List.range (if p.real then 8 else 4)).foldl (unionNb w h p) st1

/-- Stage 3: both arrays start unset; process the sorted samples in order. -/
def unionFind (im0 : ℤ → ℚ) (w h : ℕ) : (ℤ → Sample) × (ℤ → Sample) :=
  (processedList im0 w h).foldl (unionStep w h)
    ((fun _ => Sample.unset), (fun _ => Sample.unset))

/-- The component-merging forest `par` after stage 3. -/
def parUF (im0 : ℤ → ℚ) (w h : ℕ) : ℤ → Sample := (unionFind im0 w h).1

/-- Stage 4 `make_canonical`: walk the sorted array in reverse, stop at the
first sample whose parent is unset (`p->x<0`), and replace each sample's
parent by its grandparent whenever the two carry equal values. -/
def mkCanon (im0 : ℤ → ℚ) (w h : ℕ) :
    List Sample → (ℤ → Sample) → (ℤ → Sample)
  | [], par => par
  | pos :: rest, par =>
    let p := par (sidx w h pos)
    if p.x < 0 then par
    else
      let q := par (sidx w h p)
      let par2 := if imFull im0 w h (sidx w h p) = imFull im0 w h (sidx w h q)
        then (fun j => if j = sidx w h pos then q else par j) else par
      mkCanon im0 w h rest par2

/-- The parent array after stage 4. -/
def parCanon (im0 : ℤ → ℚ) (w h : ℕ) : ℤ → Sample :=
  mkCanon im0 w h (orderedPos im0 w h).reverse (parUF im0 w h)

/-- `is_canonical`: false for an unset parent, true for a root, else true
iff the sample's value differs from its parent's. -/
def is_canonical (im0 : ℤ → ℚ) (w h : ℕ) (par : ℤ → Sample) (p : Sample) :
    Prop :=
  ¬((par (sidx w h p)).x < 0) ∧
    (p = par (sidx w h p) ∨
      imFull im0 w h (sidx w h (par (sidx w h p))) ≠ imFull im0 w h (sidx w h p))

instance (im0 : ℤ → ℚ) (w h : ℕ) (par : ℤ → Sample) (p : Sample) :
    Decidable (is_canonical im0 w h par p) := by
  unfold is_canonical; infer_instance

/-- `Node` of the component tree. The C++ constructor leaves `parent`
uninitialized; it is never read before being written, and the embedding
defaults it to 0. -/
structure PNode where
  parent : ℕ
  children : List ℕ
  level : ℚ
  contrast : ℚ

/-- Out-of-range reads return this default node. -/
def dNode : PNode := ⟨0, [], 0, 0⟩

/-- `tree[i]` as a total read. -/
def nodeAt (t : List PNode) (i : ℕ) : PNode := t.getD i dNode

/-- The node-enumeration order of `compute_tree`: `yy` sweeps `0..2h-1`,
switching from real to virtual at `h` (`y -= h; real = false`). This is
exactly the increasing `Sample::operator<` order, so the insertion-ordered
association list below coincides with the iteration order of the C++
`std::map`. -/
def enumSamples (w h : ℕ) : List Sample :=
  (List.range (2 * h)).bind fun yy =>
    (List.range w).map fun x : ℕ =>
      if yy < h then (⟨(x : ℤ), (yy : ℤ), true⟩ : Sample)
      else ⟨(x : ℤ), (yy : ℤ) - h, false⟩

/-- Lookup in the association list embedding the `std::map`. -/
def lookupM : List (Sample × ℕ) → Sample → Option ℕ
  | [], _ => none
  | e :: rest, s => if e.1 = s then some e.2 else lookupM rest s

/-- First phase of `compute_tree`: enumerate canonical samples, assign node
indices in order, and create one node per canonical sample carrying its
level. -/
def buildNodes (im0 : ℤ → ℚ) (w h : ℕ) (par : ℤ → Sample) :
    List (Sample × ℕ) × List PNode :=
  (enumSamples w h).foldl
    (fun (acc : List (Sample × ℕ) × List PNode) p =>
      if is_canonical im0 w h par p then
        (acc.1 ++ [(p, acc.2.length)],
         acc.2 ++ [⟨0, [], imFull im0 w h (sidx w h p), 0⟩])
      else acc)
    ([], [])

/-- Second phase of `compute_tree`: for each canonical sample in map order,
either record it as the root (its parent is itself) or push its node index
into its parent's children and set its parent link. The C++ `m[parent]`
(`operator[]`, which would default-insert 0 for an absent key — a case that
cannot occur after `make_canonical`) is embedded as `getD 0`. -/
def fillChildren (w h : ℕ) (par : ℤ → Sample) (m : List (Sample × ℕ))
    (t0 : List PNode) : List PNode × ℕ :=
  m.foldl
    (fun (acc : List PNode × ℕ) e =>
      if par (sidx w h e.1) = e.1 then (acc.1, e.2)
      else
        let pi := (lookupM m (par (sidx w h e.1))).getD 0
        let n1 := nodeAt acc.1 pi
        let t1 := acc.1.set pi ⟨n1.parent, n1.children ++ [e.2], n1.level, n1.contrast⟩
        let n2 := nodeAt t1 e.2
        let t2 := t1.set e.2 ⟨pi, n2.children, n2.level, n2.contrast⟩
        (t2, acc.2))
    (t0, 0)

/-- `fill_contrast_uptree` with fuel (the node tree is acyclic, so any fuel
at least the number of nodes reproduces the C++ recursion): the contrast of
a node is the maximum over children of `contrast(child) + level(node) -
level(child)`, `0` for a leaf; returns the updated tree and the contrast. -/
def fill_contrast_uptree : ℕ → List PNode → ℕ → (List PNode × ℚ)
  | 0, t, i => (t, (nodeAt t i).contrast)
  | fuel + 1, t, i =>
    let r := (nodeAt t i).children.foldl
      (fun (acc : List PNode × ℚ) j =>
        let rc := fill_contrast_uptree fuel acc.1 j
        let c := rc.2 + (nodeAt rc.1 i).level - (nodeAt rc.1 j).level
        (rc.1, if acc.2 < c then c else acc.2))
      (t, 0)
    let n := nodeAt r.1 i
    (r.1.set i ⟨n.parent, n.children, n.level, r.2⟩, r.2)

/-- `fill_contrast_downtree` with fuel: compute the arg-max set of the
children's contrasts, overwrite each dominant child's contrast with the
node's own, then recurse into all children. -/
def fill_contrast_downtree : ℕ → List PNode → ℕ → List PNode
  | 0, t, _ => t
  | fuel + 1, t, i =>
    let cm := (nodeAt t i).children.foldl
      (fun (acc : ℚ × List ℕ) j =>
        let c := (nodeAt t j).contrast
        if acc.1 ≤ c then
          (if acc.1 ≠ c then (c, [j]) else (acc.1, acc.2 ++ [j]))
        else acc)
      (0, [])
    let t1 := cm.2.foldl
      (fun tt j =>
        let nj := nodeAt tt j
        tt.set j ⟨nj.parent, nj.children, nj.level, (nodeAt tt i).contrast⟩) t
    (nodeAt t i).children.foldl
      (fun tt j => fill_contrast_downtree fuel tt j) t1

/-- `compute_tree`: nodes, children, then the two contrast passes from the
recorded root. -/
def compute_tree (im0 : ℤ → ℚ) (w h : ℕ) (par : ℤ → Sample) :
    List (Sample × ℕ) × List PNode :=
  let bm := buildNodes im0 w h par
  let fc := fillChildren w h par bm.1 bm.2
  let t1 := (fill_contrast_uptree (fc.1.length + 1) fc.1 fc.2).1
  let t2 := fill_contrast_downtree (t1.length + 1) t1 fc.2
  (bm.1, t2)

/-- `fill_persistence` at one pixel: replace a non-canonical sample by its
(canonicalized) parent and emit that node's contrast. `none` models the
failing `std::map::at` lookup on which the C++ would abort. -/
def fill_persistence (im0 : ℤ → ℚ) (w h : ℕ) (par : ℤ → Sample)
    (m : List (Sample × ℕ)) (t : List PNode) (x y : ℤ) : Option ℚ :=
  let s : Sample := ⟨x, y, true⟩
  let s2 := if is_canonical im0 w h par s then s else par (sidx w h s)
  (lookupM m s2).bind fun i => (t.get? i).map fun n => n.contrast

/-- `persistence(in, w, h, out)` assembled end to end, as a partial map on
pixel coordinates. -/
def persistence (im0 : ℤ → ℚ) (w h : ℕ) (x y : ℤ) : Option ℚ :=
  let par := parCanon im0 w h
  let mt := compute_tree im0 w h par
  fill_persistence im0 w h par mt.1 mt.2 x y

/-- C4 counterexample image, a 2x1 strip with values 0 and 1. -/
def im4cx : ℤ → ℚ := fun k => if k = 1 then 1 else 0

/-- C4. Counterexample to the claim as stated: on the 2x1 image (0,1), the
stage-3 union-find makes sample (1,0) (level 1) the proper ancestor — here
the direct parent — of sample (0,0) (level 0), and level(ancestor) ≤
level(descendant) fails: parents carry levels greater or equal, not smaller
or equal. -/
theorem C4_counterexample :
    parUF im4cx 2 1 (sidx 2 1 ⟨0, 0, true⟩) = ⟨1, 0, true⟩ ∧
    (⟨1, 0, true⟩ : Sample) ≠ ⟨0, 0, true⟩ ∧
    ¬(imFull im4cx 2 1 (sidx 2 1 ⟨1, 0, true⟩) ≤
        imFull im4cx 2 1 (sidx 2 1 ⟨0, 0, true⟩)) := by decide

/-- C3 counterexample image, a constant 2x1 strip (one plateau). -/
def im3cx : ℤ → ℚ := fun _ => 0

/-- C3. Counterexample to the claim as stated: on the constant 2x1 image,
after `make_canonical` the sample (0,0) has parent (1,0) — a different
sample, so the root is not yet reached — but the image value does not
strictly increase along this first step of the parent chain: both are 0.
Plateau members keep a parent at their own level. -/
theorem C3_counterexample :
    parCanon im3cx 2 1 (sidx 2 1 ⟨0, 0, true⟩) = ⟨1, 0, true⟩ ∧
    (⟨1, 0, true⟩ : Sample) ≠ ⟨0, 0, true⟩ ∧
    ¬(imFull im3cx 2 1 (sidx 2 1 ⟨0, 0, true⟩) <
        imFull im3cx 2 1 (sidx 2 1
          (parCanon im3cx 2 1 (sidx 2 1 ⟨0, 0, true⟩)))) := by decide

/-! ### Order properties of the sample comparator -/

lemma sampleLt_irrefl (p : Sample) : ¬ sampleLt p p := by
  unfold sampleLt
  simp

lemma sampleLt_trans {p q r : Sample} (h1 : sampleLt p q) (h2 : sampleLt q r) :
    sampleLt p r := by
  unfold sampleLt at *
  cases hp : p.real <;> cases hq : q.real <;> cases hr : r.real <;>
    simp [hp, hq, hr] at * <;> omega

lemma sampleLt_total {p q : Sample} (hne : p ≠ q) :
    sampleLt p q ∨ sampleLt q p := by
  unfold sampleLt
  by_cases hxy : p.real = q.real
  · have hne2 : ¬(p.y = q.y ∧ p.x = q.x) := by
      intro ⟨h1, h2⟩
      exact hne (by cases p; cases q; simp_all)
    cases hp : p.real <;> cases hq : q.real <;> simp [hp, hq] at hxy ⊢ <;> omega
  · cases hp : p.real <;> cases hq : q.real <;> simp_all

lemma cmpS_irrefl (im0 : ℤ → ℚ) (w h : ℕ) (p : Sample) : ¬ cmpS im0 w h p p := by
  unfold cmpS
  rintro (hlt | ⟨-, hlt⟩)
  · exact lt_irrefl _ hlt
  · exact sampleLt_irrefl p hlt

lemma cmpS_trans (im0 : ℤ → ℚ) (w h : ℕ) {p q r : Sample}
    (h1 : cmpS im0 w h p q) (h2 : cmpS im0 w h q r) : cmpS im0 w h p r := by
  unfold cmpS at *
  rcases h1 with h1 | ⟨he1, hs1⟩ <;> rcases h2 with h2 | ⟨he2, hs2⟩
  · exact Or.inl (lt_trans h1 h2)
  · exact Or.inl (he2 ▸ h1)
  · exact Or.inl (he1 ▸ h2)
  · exact Or.inr ⟨he1.trans he2, sampleLt_trans hs1 hs2⟩

lemma cmpS_trichotomy (im0 : ℤ → ℚ) (w h : ℕ) (p q : Sample) :
    cmpS im0 w h p q ∨ cmpS im0 w h q p ∨ p = q := by
  rcases lt_trichotomy (sval im0 w h p) (sval im0 w h q) with hv | hv | hv
  · exact Or.inl (Or.inl hv)
  · by_cases hpq : p = q
    · exact Or.inr (Or.inr hpq)
    · rcases sampleLt_total hpq with hs | hs
      · exact Or.inl (Or.inr ⟨hv, hs⟩)
      · exact Or.inr (Or.inl (Or.inr ⟨hv.symm, hs⟩))
  · exact Or.inr (Or.inl (Or.inl hv))

lemma leS_true_iff (im0 : ℤ → ℚ) (w h : ℕ) (p q : Sample) :
    leS im0 w h p q = true ↔ ¬ cmpS im0 w h q p := by
  unfold leS
  simp

lemma leS_trans (im0 : ℤ → ℚ) (w h : ℕ) :
    ∀ a b c, leS im0 w h a b = true → leS im0 w h b c = true →
      leS im0 w h a c = true := by
  intro a b c h1 h2
  rw [leS_true_iff] at *
  intro hca
  rcases cmpS_trichotomy im0 w h a b with hab | hba | rfl
  · exact h2 (cmpS_trans im0 w h hca hab)
  · exact h1 hba
  · exact h2 hca

lemma leS_total (im0 : ℤ → ℚ) (w h : ℕ) :
    ∀ a b, leS im0 w h a b = true ∨ leS im0 w h b a = true := by
  intro a b
  by_cases hab : cmpS im0 w h b a
  · right
    rw [leS_true_iff]
    intro hba
    exact cmpS_irrefl im0 w h a (cmpS_trans im0 w h hba hab)
  · left
    rw [leS_true_iff]
    exact hab

lemma pairwise_orderedPos (im0 : ℤ → ℚ) (w h : ℕ) :
    (orderedPos im0 w h).Pairwise (fun p q => leS im0 w h p q = true) :=
  pairwise_sortBy _ (leS_trans im0 w h) (leS_total im0 w h) _

lemma mem_orderedPos (im0 : ℤ → ℚ) (w h : ℕ) (s : Sample) :
    s ∈ orderedPos im0 w h ↔ s ∈ allSamples w h :=
  mem_sortBy _ _ _

/-- In a sorted list, every sample surviving the `upper_bound` skip is
strictly greater than `dumb` in the comparator order. -/
lemma dropWhile_all_cmp (im0 : ℤ → ℚ) (w h : ℕ) (d0 : Sample) :
    ∀ l : List Sample, l.Pairwise (fun p q => leS im0 w h p q = true) →
      ∀ s ∈ l.dropWhile (fun s => !(decide (cmpS im0 w h d0 s))),
        cmpS im0 w h d0 s := by
  intro l
  induction l with
  | nil => intro _ s hs; simp [List.dropWhile] at hs
  | cons a t ih =>
    intro hP s hs
    rcases List.pairwise_cons.1 hP with ⟨ha, ht⟩
    rw [List.dropWhile_cons] at hs
    split_ifs at hs with hpa
    · exact ih ht s hs
    · have hda : cmpS im0 w h d0 a := by
        revert hpa
        simp
      rcases List.mem_cons.1 hs with rfl | hs2
      · exact hda
      · rcases cmpS_trichotomy im0 w h d0 s with hc | hc | rfl
        · exact hc
        · have hsa : ¬ cmpS im0 w h s a := (leS_true_iff im0 w h a s).1 (ha s hs2)
          exact absurd (cmpS_trans im0 w h hc hda) hsa
        · have hsa : ¬ cmpS im0 w h d0 a :=
            (leS_true_iff im0 w h a d0).1 (ha d0 hs2)
          exact absurd hda hsa

lemma processed_cmp_dumb (im0 : ℤ → ℚ) (w h : ℕ) :
    ∀ s ∈ processedList im0 w h, cmpS im0 w h (dumb w h) s :=
  dropWhile_all_cmp im0 w h (dumb w h) (orderedPos im0 w h)
    (pairwise_orderedPos im0 w h)

lemma processed_subset (im0 : ℤ → ℚ) (w h : ℕ) :
    ∀ s ∈ processedList im0 w h, s ∈ orderedPos im0 w h := by
  intro s hs
  exact (List.dropWhile_sublist _).subset hs

lemma pairwise_processed (im0 : ℤ → ℚ) (w h : ℕ) :
    (processedList im0 w h).Pairwise (fun p q => leS im0 w h p q = true) :=
  (pairwise_orderedPos im0 w h).sublist (List.dropWhile_sublist _)

lemma mem_processed_of_cmp (im0 : ℤ → ℚ) (w h : ℕ) (s : Sample)
    (hs : s ∈ orderedPos im0 w h) (hc : cmpS im0 w h (dumb w h) s) :
    s ∈ processedList im0 w h := by
  have hsplit := List.takeWhile_append_dropWhile
    (p := fun s => !(decide (cmpS im0 w h (dumb w h) s))) (l := orderedPos im0 w h)
  rw [← hsplit] at hs
  rcases List.mem_append.1 hs with hm | hm
  · have := List.mem_takeWhile_imp hm
    simp at this
    exact absurd hc this
  · exact hm

lemma mem_allSamples (w h : ℕ) (s : Sample) :
    s ∈ allSamples w h ↔
      0 ≤ s.x ∧ s.x < (w : ℤ) ∧ 0 ≤ s.y ∧ s.y < (h : ℤ) := by
  unfold allSamples
  constructor
  · intro hmem
    rcases List.mem_append.1 hmem with hm | hm <;>
    · rcases List.mem_bind.1 hm with ⟨y, hy, hm2⟩
      rcases List.mem_map.1 hm2 with ⟨x, hx, rfl⟩
      rw [List.mem_range] at hy hx
      refine ⟨?_, ?_, ?_, ?_⟩ <;> dsimp only <;>
        first
          | exact_mod_cast Nat.zero_le x
          | exact_mod_cast hx
          | exact_mod_cast Nat.zero_le y
          | exact_mod_cast hy
  · rintro ⟨h1, h2, h3, h4⟩
    have hx : s.x = ((s.x.toNat : ℕ) : ℤ) := (Int.toNat_of_nonneg h1).symm
    have hy : s.y = ((s.y.toNat : ℕ) : ℤ) := (Int.toNat_of_nonneg h3).symm
    apply List.mem_append.2
    cases hr : s.real
    · right
      apply List.mem_bind.2
      refine ⟨s.y.toNat, List.mem_range.2 (by omega), List.mem_map.2
        ⟨s.x.toNat, List.mem_range.2 (by omega), ?_⟩⟩
      cases s
      simp_all
    · left
      apply List.mem_bind.2
      refine ⟨s.y.toNat, List.mem_range.2 (by omega), List.mem_map.2
        ⟨s.x.toNat, List.mem_range.2 (by omega), ?_⟩⟩
      cases s
      simp_all

/-- Pixel values of the input image. -/
def pixList (im0 : ℤ → ℚ) (w h : ℕ) : List ℚ :=
  (List.range (w * h)).map fun k : ℕ => im0 (k : ℤ)

/-- Minimum pixel value (`min(image)`). -/
def imgMin (im0 : ℤ → ℚ) (w h : ℕ) : ℚ := (pixList im0 w h).foldr min (im0 0)

/-- Maximum pixel value (`max(image)`). -/
def imgMax (im0 : ℤ → ℚ) (w h : ℕ) : ℚ := (pixList im0 w h).foldr max (im0 0)

lemma foldr_min_le_mem (l : List ℚ) (init v : ℚ) (hv : v ∈ l) :
    l.foldr min init ≤ v := by
  induction l with
  | nil => cases hv
  | cons a t ih =>
    rcases List.mem_cons.1 hv with rfl | hv2
    · exact min_le_left _ _
    · exact le_trans (min_le_right _ _) (ih hv2)

lemma foldr_min_le_init (l : List ℚ) (init : ℚ) : l.foldr min init ≤ init := by
  induction l with
  | nil => exact le_refl _
  | cons a t ih => exact le_trans (min_le_right _ _) ih

lemma le_foldr_max_mem (l : List ℚ) (init v : ℚ) (hv : v ∈ l) :
    v ≤ l.foldr max init := by
  induction l with
  | nil => cases hv
  | cons a t ih =>
    rcases List.mem_cons.1 hv with rfl | hv2
    · exact le_max_left _ _
    · exact le_trans (ih hv2) (le_max_right _ _)

lemma init_le_foldr_max (l : List ℚ) (init : ℚ) : init ≤ l.foldr max init := by
  induction l with
  | nil => exact le_refl _
  | cons a t ih => exact le_trans ih (le_max_right _ _)

/-- Every in-range pixel value lies between `imgMin` and `imgMax`. -/
lemma pix_bounds (im0 : ℤ → ℚ) (w h : ℕ) (k : ℤ) (h0 : 0 ≤ k)
    (h1 : k < ((w * h : ℕ) : ℤ)) :
    imgMin im0 w h ≤ im0 k ∧ im0 k ≤ imgMax im0 w h := by
  have hmem : im0 k ∈ pixList im0 w h := by
    unfold pixList
    have hk : k.toNat < w * h := by omega
    refine List.mem_map.2 ⟨k.toNat, List.mem_range.2 hk, ?_⟩
    rw [Int.toNat_of_nonneg h0]
  exact ⟨foldr_min_le_mem _ _ _ hmem, le_foldr_max_mem _ _ _ hmem⟩

lemma imgMin_le_imgMax (im0 : ℤ → ℚ) (w h : ℕ) :
    imgMin im0 w h ≤ imgMax im0 w h :=
  le_trans (foldr_min_le_init _ _) (init_le_foldr_max _ _)

lemma sval_real (im0 : ℤ → ℚ) (w h : ℕ) (s : Sample) (hr : s.real = true)
    (h1 : 0 ≤ s.x) (h2 : s.x < (w : ℤ)) (h3 : 0 ≤ s.y) (h4 : s.y < (h : ℤ)) :
    sval im0 w h s = im0 (s.x + s.y * w) ∧
      0 ≤ s.x + s.y * w ∧ s.x + s.y * w < ((w * h : ℕ) : ℤ) := by
  have hb : 0 ≤ s.x + s.y * w ∧ s.x + s.y * w < ((w * h : ℕ) : ℤ) := by
    constructor
    · have : 0 ≤ s.y * w := mul_nonneg h3 (by positivity)
      omega
    · have hyw : s.y * w ≤ (h - 1) * w := by
        apply mul_le_mul_of_nonneg_right (by omega) (by positivity)
      push_cast
      nlinarith
  refine ⟨?_, hb.1, hb.2⟩
  have hsidx : sidx w h s = s.x + s.y * w := by
    unfold sidx
    rw [hr]
    simp
  unfold sval imFull
  rw [hsidx, if_pos hb.2]

lemma sval_virtual (im0 : ℤ → ℚ) (w h : ℕ) (s : Sample) (hr : s.real = false)
    (h1 : 0 ≤ s.x) (h2 : s.x < (w : ℤ)) (h3 : 0 ≤ s.y) (h4 : s.y < (h : ℤ)) :
    sval im0 w h s = fill_virtual_samples im0 w h s.x s.y := by
  have hw : 0 < (w : ℤ) := lt_of_le_of_lt h1 h2
  unfold sval imFull sidx
  rw [hr]
  simp only [Bool.false_eq_true, if_false]
  rw [if_neg]
  · have he : s.x + (s.y + h) * w - ((w * h : ℕ) : ℤ) = s.x + s.y * w := by
      push_cast
      ring
    rw [he]
    have hmod : (s.x + s.y * w) % w = s.x := by
      rw [Int.add_mul_emod_self]
      exact Int.emod_eq_of_lt h1 h2
    have hdiv : (s.x + s.y * w) / w = s.y := by
      rw [Int.add_mul_ediv_right _ _ (by omega : (w : ℤ) ≠ 0),
        Int.ediv_eq_zero_of_lt h1 h2]
      ring
    rw [hmod, hdiv]
  · push_neg
    have : ((h : ℤ)) * w ≤ (s.y + h) * w := by
      apply mul_le_mul_of_nonneg_right (by omega) (by positivity)
    push_cast
    nlinarith

lemma sval_dumb (im0 : ℤ → ℚ) (w h : ℕ) (hw : 1 ≤ w) (hh : 1 ≤ h) :
    sval im0 w h (dumb w h) = -1 := by
  rw [sval_virtual im0 w h (dumb w h) rfl (by simp only [dumb]; omega)
    (by simp only [dumb]; omega) (by simp only [dumb]; omega)
    (by simp only [dumb]; omega)]
  unfold fill_virtual_samples dumb
  rw [if_neg (by dsimp only; omega)]

/-- Values of processed samples lie between the extremes of the input image:
real samples are pixels, processed virtual samples are genuine saddle values
strictly between their four corner pixels, and sentinel virtual samples are
never processed. -/
lemma processed_val_mem (im0 : ℤ → ℚ) (w h : ℕ) :
    ∀ s ∈ processedList im0 w h,
      imgMin im0 w h ≤ sval im0 w h s ∧ sval im0 w h s ≤ imgMax im0 w h := by
  intro s hs
  have hall : s ∈ allSamples w h :=
    (mem_orderedPos im0 w h s).1 (processed_subset im0 w h s hs)
  rcases (mem_allSamples w h s).1 hall with ⟨h1, h2, h3, h4⟩
  cases hr : s.real
  · -- virtual sample
    rw [sval_virtual im0 w h s hr h1 h2 h3 h4]
    rw [fill_virtual_samples_char]
    dsimp only
    split_ifs with hcond
    · rcases hcond with ⟨hx1, hy1, hspec⟩
      have hpos : (0:ℤ) ≤ s.y * w + s.x ∧ s.y * w + s.x + w + 1 < ((w*h:ℕ):ℤ) := by
        constructor
        · have : 0 ≤ s.y * w := mul_nonneg h3 (by positivity)
          omega
        · have hyw : s.y * w ≤ (h - 2) * w := by
            apply mul_le_mul_of_nonneg_right (by omega) (by positivity)
          push_cast
          nlinarith
      have hb1 := pix_bounds im0 w h (s.y * w + s.x) (by omega) (by omega)
      have hb2 := pix_bounds im0 w h (s.y * w + s.x + 1) (by omega) (by omega)
      have hb3 := pix_bounds im0 w h (s.y * w + s.x + w) (by omega) (by omega)
      have hb4 := pix_bounds im0 w h (s.y * w + s.x + w + 1) (by omega) (by omega)
      exact saddle_value_mem (imgMin im0 w h) (imgMax im0 w h) _ _ _ _ hspec
        hb1.1 hb1.2 hb2.1 hb2.2 hb3.1 hb3.2 hb4.1 hb4.2
    · -- sentinel: contradiction with being processed
      exfalso
      have hcmp := processed_cmp_dumb im0 w h s hs
      have hws : 1 ≤ w := by omega
      have hhs : 1 ≤ h := by omega
      have hvs : sval im0 w h s = -1 := by
        rw [sval_virtual im0 w h s hr h1 h2 h3 h4, fill_virtual_samples_char]
        dsimp only
        rw [if_neg hcond]
      unfold cmpS at hcmp
      rw [sval_dumb im0 w h hws hhs, hvs] at hcmp
      rcases hcmp with hlt | ⟨-, hslt⟩
      · exact absurd hlt (by norm_num)
      · unfold sampleLt dumb at hslt
        rw [hr] at hslt
        simp at hslt
        omega
  · -- real sample: a pixel value
    have hv := sval_real im0 w h s hr h1 h2 h3 h4
    rw [hv.1]
    exact pix_bounds im0 w h _ hv.2.1 hv.2.2

/-! ### Invariants of the union-find sweep -/

/-- Invariant of stage 3 after processing the samples of `P`: set `par`
entries hold processed samples, live at slots of processed samples, and
never decrease the value; set `zpar` entries hold processed samples at
processed slots; the slots of processed samples are set in both arrays. -/
def UFOk (im0 : ℤ → ℚ) (w h : ℕ) (P : List Sample)
    (st : (ℤ → Sample) × (ℤ → Sample)) : Prop :=
  (∀ k, ¬((st.1 k).x < 0) →
    st.1 k ∈ P ∧ (∃ s ∈ P, k = sidx w h s) ∧
    imFull im0 w h k ≤ imFull im0 w h (sidx w h (st.1 k))) ∧
  (∀ k, ¬((st.2 k).x < 0) → st.2 k ∈ P ∧ (∃ s ∈ P, k = sidx w h s)) ∧
  (∀ s ∈ P, ¬((st.1 (sidx w h s)).x < 0) ∧ ¬((st.2 (sidx w h s)).x < 0))

lemma rootF_ok (w h : ℕ) (P : List Sample) (HPx : ∀ s ∈ P, 0 ≤ s.x) :
    ∀ (fuel : ℕ) (z : ℤ → Sample) (k : ℤ),
      (∀ k2, ¬((z k2).x < 0) → z k2 ∈ P ∧ ∃ s ∈ P, k2 = sidx w h s) →
      (∀ s ∈ P, ¬((z (sidx w h s)).x < 0)) →
      ¬((z k).x < 0) →
      (∀ k2, ¬(((rootF w h fuel z k).1 k2).x < 0) →
        (rootF w h fuel z k).1 k2 ∈ P ∧ ∃ s ∈ P, k2 = sidx w h s) ∧
      (∀ s ∈ P, ¬(((rootF w h fuel z k).1 (sidx w h s)).x < 0)) ∧
      (∃ s ∈ P, (rootF w h fuel z k).2 = sidx w h s) ∧
      ¬(((rootF w h fuel z k).1 (rootF w h fuel z k).2).x < 0) := by
  intro fuel
  induction fuel with
  | zero =>
    intro z k hB hC hk
    exact ⟨hB, hC, (hB k hk).2, hk⟩
  | succ fuel ih =>
    intro z k hB hC hk
    simp only [rootF]
    split_ifs with heq
    · exact ⟨hB, hC, (hB k hk).2, hk⟩
    · have hzk := hB k hk
      have hk2 : ¬((z (sidx w h (z k))).x < 0) := hC (z k) hzk.1
      have hr := ih z (sidx w h (z k)) hB hC hk2
      have hroot_mem : (rootF w h fuel z (sidx w h (z k))).1
          (rootF w h fuel z (sidx w h (z k))).2 ∈ P :=
        ((hr.1 _ hr.2.2.2).1)
      refine ⟨?_, ?_, hr.2.2.1, ?_⟩
      · intro k2 hset
        dsimp only at hset ⊢
        by_cases hk2k : k2 = k
        · rw [hk2k] at hset ⊢
          rw [if_pos rfl] at hset ⊢
          exact ⟨hroot_mem, hzk.2⟩
        · rw [if_neg hk2k] at hset ⊢
          exact hr.1 k2 hset
      · intro s hs
        dsimp only
        by_cases hsk : sidx w h s = k
        · rw [hsk, if_pos rfl]
          have := HPx _ hroot_mem
          omega
        · rw [if_neg hsk]
          exact hr.2.1 s hs
      · dsimp only
        split_ifs with hrk
        · have := HPx _ hroot_mem
          omega
        · exact hr.2.2.2

lemma unionNb_core_ok (im0 : ℤ → ℚ) (w h : ℕ) (Q : List Sample) (p : Sample)
    (st2 : (ℤ → Sample) × (ℤ → Sample)) (x y : ℤ) (b : Bool)
    (HQx : ∀ s ∈ Q, 0 ≤ s.x) (hpQ : p ∈ Q)
    (hval : ∀ s ∈ Q, imFull im0 w h (sidx w h s) ≤ imFull im0 w h (sidx w h p))
    (hOk : UFOk im0 w h Q st2) :
    UFOk im0 w h Q
      (if x < 0 ∨ (w : ℤ) ≤ x ∨ y < 0 ∨ (h : ℤ) ≤ y then st2
       else
         if (st2.2 (sidx w h ⟨x, y, b⟩)).x < 0 then st2
         else
           if (rootF w h (2 * (w * h) + 1) st2.2 (sidx w h ⟨x, y, b⟩)).2 =
               sidx w h p then
             (st2.1, (rootF w h (2 * (w * h) + 1) st2.2 (sidx w h ⟨x, y, b⟩)).1)
           else
             ((fun j => if j = (rootF w h (2 * (w * h) + 1) st2.2
                 (sidx w h ⟨x, y, b⟩)).2 then p else st2.1 j),
              (fun j => if j = (rootF w h (2 * (w * h) + 1) st2.2
                 (sidx w h ⟨x, y, b⟩)).2 then p
               else (rootF w h (2 * (w * h) + 1) st2.2 (sidx w h ⟨x, y, b⟩)).1 j))) := by
  rcases hOk with ⟨hA, hB, hC⟩
  split_ifs with hout hunset hrk
  · exact ⟨hA, hB, hC⟩
  · exact ⟨hA, hB, hC⟩
  · -- root found is p's own slot: only the compressed zpar is kept
    have hr := rootF_ok w h Q HQx (2 * (w * h) + 1) st2.2 _
      (fun k2 hs => hB k2 hs) (fun s hs => (hC s hs).2) hunset
    exact ⟨hA, fun k hs => hr.1 k hs, fun s hs => ⟨(hC s hs).1, hr.2.1 s hs⟩⟩
  · -- merge: the root slot is overwritten by p in both arrays
    have hr := rootF_ok w h Q HQx (2 * (w * h) + 1) st2.2 _
      (fun k2 hs => hB k2 hs) (fun s hs => (hC s hs).2) hunset
    refine ⟨?_, ?_, ?_⟩
    · intro k hset
      dsimp only at hset ⊢
      by_cases hk : k = (rootF w h (2 * (w * h) + 1) st2.2 (sidx w h ⟨x, y, b⟩)).2
      · rw [if_pos hk] at hset ⊢
        rcases hr.2.2.1 with ⟨s, hs1, hs2⟩
        refine ⟨hpQ, ⟨s, hs1, hk.trans hs2⟩, ?_⟩
        rw [hk, hs2]
        exact hval s hs1
      · rw [if_neg hk] at hset ⊢
        exact hA k hset
    · intro k hset
      dsimp only at hset ⊢
      by_cases hk : k = (rootF w h (2 * (w * h) + 1) st2.2 (sidx w h ⟨x, y, b⟩)).2
      · rw [if_pos hk] at hset ⊢
        rcases hr.2.2.1 with ⟨s, hs1, hs2⟩
        exact ⟨hpQ, ⟨s, hs1, hk.trans hs2⟩⟩
      · rw [if_neg hk] at hset ⊢
        exact hr.1 k hset
    · intro s hs
      dsimp only
      have hp0 : 0 ≤ p.x := HQx p hpQ
      constructor <;>
        · split_ifs with hk
          · omega
          · first
              | exact (hC s hs).1
              | exact hr.2.1 s hs

lemma unionNb_ok (im0 : ℤ → ℚ) (w h : ℕ) (Q : List Sample) (p : Sample)
    (i : ℕ) (st2 : (ℤ → Sample) × (ℤ → Sample))
    (HQx : ∀ s ∈ Q, 0 ≤ s.x) (hpQ : p ∈ Q)
    (hval : ∀ s ∈ Q, imFull im0 w h (sidx w h s) ≤ imFull im0 w h (sidx w h p))
    (hOk : UFOk im0 w h Q st2) :
    UFOk im0 w h Q (unionNb w h p st2 i) := by
  simp only [unionNb]
  by_cases hreal : p.real = true
  · rw [if_pos hreal]
    exact unionNb_core_ok im0 w h Q p st2 _ _ _ HQx hpQ hval hOk
  · rw [if_neg hreal]
    exact unionNb_core_ok im0 w h Q p st2 _ _ _ HQx hpQ hval hOk

lemma foldl_unionNb_ok (im0 : ℤ → ℚ) (w h : ℕ) (Q : List Sample) (p : Sample)
    (HQx : ∀ s ∈ Q, 0 ≤ s.x) (hpQ : p ∈ Q)
    (hval : ∀ s ∈ Q, imFull im0 w h (sidx w h s) ≤ imFull im0 w h (sidx w h p)) :
    ∀ (idxs : List ℕ) (st2 : (ℤ → Sample) × (ℤ → Sample)),
      UFOk im0 w h Q st2 → UFOk im0 w h Q (idxs.foldl (unionNb w h p) st2) := by
  intro idxs
  induction idxs with
  | nil => intro st2 hOk; exact hOk
  | cons i rest ih =>
    intro st2 hOk
    rw [List.foldl_cons]
    exact ih _ (unionNb_ok im0 w h Q p i st2 HQx hpQ hval hOk)

lemma unionStep_ok (im0 : ℤ → ℚ) (w h : ℕ) (P : List Sample) (p : Sample)
    (st : (ℤ → Sample) × (ℤ → Sample))
    (HPx : ∀ s ∈ P, 0 ≤ s.x) (hpx : 0 ≤ p.x)
    (hval : ∀ s ∈ P, imFull im0 w h (sidx w h s) ≤ imFull im0 w h (sidx w h p))
    (hOk : UFOk im0 w h P st) :
    UFOk im0 w h (P ++ [p]) (unionStep w h st p) := by
  rcases hOk with ⟨hA, hB, hC⟩
  have hpQ : p ∈ P ++ [p] := List.mem_append_right _ (List.mem_singleton.2 rfl)
  have HPx2 : ∀ s ∈ P ++ [p], 0 ≤ s.x := by
    intro s hs
    rcases List.mem_append.1 hs with hs | hs
    · exact HPx s hs
    · rw [List.mem_singleton.1 hs]; exact hpx
  have hval2 : ∀ s ∈ P ++ [p],
      imFull im0 w h (sidx w h s) ≤ imFull im0 w h (sidx w h p) := by
    intro s hs
    rcases List.mem_append.1 hs with hs | hs
    · exact hval s hs
    · rw [List.mem_singleton.1 hs]
  have hOk1 : UFOk im0 w h (P ++ [p])
      ((fun j => if j = sidx w h p then p else st.1 j),
       (fun j => if j = sidx w h p then p else st.2 j)) := by
    refine ⟨?_, ?_, ?_⟩
    · intro k hset
      dsimp only at hset ⊢
      by_cases hk : k = sidx w h p
      · rw [if_pos hk] at hset ⊢
        exact ⟨hpQ, ⟨p, hpQ, hk⟩, by rw [hk]⟩
      · rw [if_neg hk] at hset ⊢
        rcases hA k hset with ⟨h1, ⟨s, hs1, hs2⟩, h3⟩
        exact ⟨List.mem_append_left _ h1, ⟨s, List.mem_append_left _ hs1, hs2⟩, h3⟩
    · intro k hset
      dsimp only at hset ⊢
      by_cases hk : k = sidx w h p
      · rw [if_pos hk] at hset ⊢
        exact ⟨hpQ, ⟨p, hpQ, hk⟩⟩
      · rw [if_neg hk] at hset ⊢
        rcases hB k hset with ⟨h1, ⟨s, hs1, hs2⟩⟩
        exact ⟨List.mem_append_left _ h1, ⟨s, List.mem_append_left _ hs1, hs2⟩⟩
    · intro s hs
      dsimp only
      rcases List.mem_append.1 hs with hs | hs
      · constructor <;>
          · split_ifs with hk
            · omega
            · first
                | exact (hC s hs).1
                | exact (hC s hs).2
      · rw [List.mem_singleton.1 hs]
        rw [if_pos rfl, if_pos rfl]
        constructor <;> omega
  exact foldl_unionNb_ok im0 w h (P ++ [p]) p HPx2 hpQ hval2 _ _ hOk1

lemma unionFold_ok (im0 : ℤ → ℚ) (w h : ℕ) :
    ∀ (L P : List Sample) (st : (ℤ → Sample) × (ℤ → Sample)),
      (∀ s ∈ P ++ L, 0 ≤ s.x) →
      (P ++ L).Pairwise (fun p q => leS im0 w h p q = true) →
      UFOk im0 w h P st →
      UFOk im0 w h (P ++ L) (L.foldl (unionStep w h) st) := by
  intro L
  induction L with
  | nil =>
    intro P st _ _ hOk
    rw [List.append_nil]
    exact hOk
  | cons p L2 ih =>
    intro P st hx hP hOk
    have hassoc : P ++ p :: L2 = (P ++ [p]) ++ L2 := by
      rw [List.append_assoc]
      rfl
    have hval : ∀ s ∈ P, imFull im0 w h (sidx w h s) ≤
        imFull im0 w h (sidx w h p) := by
      intro s hs
      rcases List.pairwise_append.1 hP with ⟨-, -, hPL⟩
      have hle := hPL s hs p (List.mem_cons_self p L2)
      have hncmp : ¬ cmpS im0 w h p s := (leS_true_iff im0 w h s p).1 hle
      unfold cmpS at hncmp
      push_neg at hncmp
      unfold sval at hncmp
      exact hncmp.1
    have hpx : 0 ≤ p.x := hx p (List.mem_append_right _ (List.mem_cons_self p L2))
    rw [List.foldl_cons, hassoc]
    apply ih (P ++ [p]) (unionStep w h st p)
    · rw [← hassoc]
      exact hx
    · rw [← hassoc]
      exact hP
    · exact unionStep_ok im0 w h P p st
        (fun s hs => hx s (List.mem_append_left _ hs)) hpx hval hOk

/-- The stage-3 invariant holds for the full sweep. -/
lemma parUF_ok (im0 : ℤ → ℚ) (w h : ℕ) :
    UFOk im0 w h (processedList im0 w h) (unionFind im0 w h) := by
  unfold unionFind
  have h0 := unionFold_ok im0 w h (processedList im0 w h) []
    ((fun _ => Sample.unset), (fun _ => Sample.unset))
  rw [List.nil_append] at h0
  apply h0
  · intro s hs
    have hall : s ∈ allSamples w h :=
      (mem_orderedPos im0 w h s).1 (processed_subset im0 w h s hs)
    exact ((mem_allSamples w h s).1 hall).1
  · exact pairwise_processed im0 w h
  · refine ⟨?_, ?_, ?_⟩
    · intro k hset
      exact absurd (by norm_num [Sample.unset]) hset
    · intro k hset
      exact absurd (by norm_num [Sample.unset]) hset
    · intro s hs
      cases hs

/-- Invariant preserved by `make_canonical`: set parent entries are
processed samples at processed slots with non-decreasing values, and slots
of processed samples stay set. -/
def MCOk (im0 : ℤ → ℚ) (w h : ℕ) (P : List Sample) (par : ℤ → Sample) : Prop :=
  (∀ k, ¬((par k).x < 0) →
    par k ∈ P ∧ (∃ s ∈ P, k = sidx w h s) ∧
    imFull im0 w h k ≤ imFull im0 w h (sidx w h (par k))) ∧
  (∀ s ∈ P, ¬((par (sidx w h s)).x < 0))

lemma mkCanon_ok (im0 : ℤ → ℚ) (w h : ℕ) (P : List Sample)
    (HPx : ∀ s ∈ P, 0 ≤ s.x) :
    ∀ (L : List Sample) (par : ℤ → Sample),
      MCOk im0 w h P par → MCOk im0 w h P (mkCanon im0 w h L par) := by
  intro L
  induction L with
  | nil => intro par hOk; exact hOk
  | cons pos rest ih =>
    intro par hOk
    rcases hOk with ⟨hA, hC⟩
    show MCOk im0 w h P
      (if (par (sidx w h pos)).x < 0 then par
       else mkCanon im0 w h rest _)
    split_ifs with hset hveq
    · exact ⟨hA, hC⟩
    · -- fold the parent onto the grandparent (equal values)
      apply ih
      rcases hA (sidx w h pos) hset with ⟨hp1, hp2, hp3⟩
      have hqset : ¬((par (sidx w h (par (sidx w h pos)))).x < 0) :=
        hC _ hp1
      rcases hA _ hqset with ⟨hq1, -, -⟩
      refine ⟨?_, ?_⟩
      · intro k hset2
        dsimp only at hset2 ⊢
        by_cases hk : k = sidx w h pos
        · rw [hk] at hset2 ⊢
          rw [if_pos rfl] at hset2 ⊢
          exact ⟨hq1, hp2, by rw [hveq] at hp3; exact hp3⟩
        · rw [if_neg hk] at hset2 ⊢
          exact hA k hset2
      · intro s hs
        dsimp only
        split_ifs with hk
        · have := HPx _ hq1
          omega
        · exact hC s hs
    · exact ih par ⟨hA, hC⟩

/-- The invariant holds for the canonicalized parent array. -/
lemma parCanon_ok (im0 : ℤ → ℚ) (w h : ℕ) :
    MCOk im0 w h (processedList im0 w h) (parCanon im0 w h) := by
  unfold parCanon
  have hUF := parUF_ok im0 w h
  apply mkCanon_ok im0 w h (processedList im0 w h)
  · intro s hs
    have hall : s ∈ allSamples w h :=
      (mem_orderedPos im0 w h s).1 (processed_subset im0 w h s hs)
    exact ((mem_allSamples w h s).1 hall).1
  · exact ⟨hUF.1, fun s hs => (hUF.2.2 s hs).1⟩

/-- C3 (amended). After Stage 4 (`make_canonical`), following the parent
array from any processed sample yields samples of non-decreasing image
value: each set slot has a parent of value at least its own, and the
parent's own slot is again set, so the whole chain is defined. The original
"strictly increasing" fails inside plateaus (see the counterexample): a
non-canonical plateau member keeps a parent at its own level. -/
theorem C3_canonical_parent_monotone (im0 : ℤ → ℚ) (w h : ℕ) (k : ℤ)
    (hset : ¬((parCanon im0 w h k).x < 0)) :
    imFull im0 w h k ≤ imFull im0 w h (sidx w h (parCanon im0 w h k)) ∧
    ¬((parCanon im0 w h (sidx w h (parCanon im0 w h k))).x < 0) := by
  have hOk := parCanon_ok im0 w h
  rcases hOk.1 k hset with ⟨h1, -, h3⟩
  exact ⟨h3, hOk.2 _ h1⟩

/-- C3 witness: on the 2x1 image (0,1) the slot of pixel (0,0) is set after
Stage 4, its value does not exceed its parent's, and the chain continues. -/
theorem C3_canonical_parent_monotone_witness :
    ¬((parCanon im4cx 2 1 (sidx 2 1 ⟨0, 0, true⟩)).x < 0) ∧
    (imFull im4cx 2 1 (sidx 2 1 ⟨0, 0, true⟩) ≤
      imFull im4cx 2 1 (sidx 2 1 (parCanon im4cx 2 1 (sidx 2 1 ⟨0, 0, true⟩))) ∧
    ¬((parCanon im4cx 2 1
        (sidx 2 1 (parCanon im4cx 2 1 (sidx 2 1 ⟨0, 0, true⟩)))).x < 0)) :=
  ⟨by decide, C3_canonical_parent_monotone im4cx 2 1 _ (by decide)⟩

/-- The parent of a sample in the stage-3 forest. -/
def parentS (im0 : ℤ → ℚ) (w h : ℕ) (p : Sample) : Sample :=
  parUF im0 w h (sidx w h p)

/-- C4 (amended). In the stage-3 union-find forest (min orientation), a
proper ancestor never has a smaller level: for every processed sample `B`
and every number of steps `m` up the parent array, the level of the `m`-th
ancestor `A` of `B` satisfies `level(A) ≥ level(B)` (the claim's
`level(A) ≤ level(B)` is refuted by the counterexample). -/
theorem C4_ancestor_level_ge (im0 : ℤ → ℚ) (w h : ℕ) (B : Sample) (m : ℕ)
    (hset : ¬((parentS im0 w h B).x < 0)) :
    imFull im0 w h (sidx w h B) ≤
      imFull im0 w h (sidx w h ((parentS im0 w h)^[m] B)) := by
  have hOk := parUF_ok im0 w h
  have key : ∀ n : ℕ,
      imFull im0 w h (sidx w h B) ≤
        imFull im0 w h (sidx w h ((parentS im0 w h)^[n] B)) ∧
      ¬((parentS im0 w h ((parentS im0 w h)^[n] B)).x < 0) := by
    intro n
    induction n with
    | zero => exact ⟨le_refl _, hset⟩
    | succ n ihn =>
      rcases ihn with ⟨hv, hs⟩
      have hs' : ¬(((unionFind im0 w h).1
          (sidx w h ((parentS im0 w h)^[n] B))).x < 0) := hs
      rcases hOk.1 _ hs' with ⟨h1, -, h3⟩
      rw [Function.iterate_succ_apply']
      exact ⟨hv.trans h3, (hOk.2.2 _ h1).1⟩
  exact (key m).1

/-- C4 witness: on the 2x1 image (0,1), pixel (0,0) has a set parent and
its 1-step ancestor has level at least its own. -/
theorem C4_ancestor_level_ge_witness :
    ¬((parentS im4cx 2 1 ⟨0, 0, true⟩).x < 0) ∧
    imFull im4cx 2 1 (sidx 2 1 ⟨0, 0, true⟩) ≤
      imFull im4cx 2 1 (sidx 2 1 ((parentS im4cx 2 1)^[1] (⟨0, 0, true⟩ : Sample))) :=
  ⟨by decide, C4_ancestor_level_ge im4cx 2 1 ⟨0, 0, true⟩ 1 (by decide)⟩

/-- The four pixels at the corners of an interior dual-pixel cell are
in-range flat indices. -/
lemma cell_corner_bounds (w h : ℕ) (x y : ℤ) (hx0 : 0 ≤ x) (hy0 : 0 ≤ y)
    (hx1 : x + 1 < (w : ℤ)) (hy1 : y + 1 < (h : ℤ)) :
    (0 : ℤ) ≤ y * w + x ∧ y * w + x + w + 1 < ((w * h : ℕ) : ℤ) := by
  constructor
  · have : 0 ≤ y * w := mul_nonneg hy0 (by positivity)
    omega
  · have hyw : y * w ≤ ((h : ℤ) - 2) * w :=
      mul_le_mul_of_nonneg_right (by omega) (by positivity)
    push_cast
    nlinarith

/-- Witness image for C9: the 2x2 checkerboard 0,9 / 9,0. -/
def im9 : ℤ → ℚ := fun k => if k = 1 ∨ k = 2 then 9 else 0

/-- C9. When the per-cell sign test of `fill_virtual_samples` fires at an
in-range cell, the stored saddle value lies strictly between the minimum and
the maximum of the four corner pixels, and on an image with nonnegative
pixels it is therefore positive, never the sentinel `-1`. Consequently the
samples skipped by the `upper_bound` on the `dumb` sentinel are exactly the
virtual samples of saddle-free cells (real samples and genuine saddles are
all processed), and the bottom-right virtual sample always carries `-1`, so
the assertion on it passes. -/
theorem C9_virtual_samples (im0 : ℤ → ℚ) (w h : ℕ) (hw : 1 ≤ w) (hh : 1 ≤ h)
    (hnn : ∀ k : ℤ, 0 ≤ k → k < ((w * h : ℕ) : ℤ) → 0 ≤ im0 k) :
    (∀ x y : ℤ, 0 ≤ x → 0 ≤ y → x + 1 < (w : ℤ) → y + 1 < (h : ℤ) →
      0 < cornerSign (min (im0 (y * w + x)) (im0 (y * w + x + w + 1)))
            (max (im0 (y * w + x)) (im0 (y * w + x + w + 1)))
            (im0 (y * w + x + 1)) *
          cornerSign (min (im0 (y * w + x)) (im0 (y * w + x + w + 1)))
            (max (im0 (y * w + x)) (im0 (y * w + x + w + 1)))
            (im0 (y * w + x + w)) →
      (min (min (im0 (y * w + x)) (im0 (y * w + x + 1)))
          (min (im0 (y * w + x + w)) (im0 (y * w + x + w + 1))) <
        fill_virtual_samples im0 w h x y ∧
       fill_virtual_samples im0 w h x y <
        max (max (im0 (y * w + x)) (im0 (y * w + x + 1)))
          (max (im0 (y * w + x + w)) (im0 (y * w + x + w + 1)))) ∧
      fill_virtual_samples im0 w h x y ≠ -1) ∧
    (∀ s ∈ orderedPos im0 w h,
      s ∈ processedList im0 w h ↔
        ¬(s.real = false ∧ sval im0 w h s = -1)) ∧
    sval im0 w h (dumb w h) = -1 := by
  refine ⟨?_, ?_, sval_dumb im0 w h hw hh⟩
  · intro x y hx0 hy0 hx1 hy1 hdet
    have hspec := (cornerSign_mul_pos_iff_spec (im0 (y * w + x))
      (im0 (y * w + x + 1)) (im0 (y * w + x + w))
      (im0 (y * w + x + w + 1))).1 hdet
    have hfv : fill_virtual_samples im0 w h x y =
        (im0 (y * w + x) * im0 (y * w + x + w + 1) -
          im0 (y * w + x + 1) * im0 (y * w + x + w)) /
        (im0 (y * w + x) + im0 (y * w + x + w + 1) -
          im0 (y * w + x + 1) - im0 (y * w + x + w)) := by
      rw [fill_virtual_samples_char]
      dsimp only
      rw [if_pos ⟨hx1, hy1, hspec⟩]
    have hstrict := saddle_value_strict (im0 (y * w + x)) (im0 (y * w + x + 1))
      (im0 (y * w + x + w)) (im0 (y * w + x + w + 1)) hspec
    have hidx := cell_corner_bounds w h x y hx0 hy0 hx1 hy1
    have ha := hnn (y * w + x) (by omega) (by omega)
    have hb := hnn (y * w + x + 1) (by omega) (by omega)
    have hc := hnn (y * w + x + w) (by omega) (by omega)
    have hd := hnn (y * w + x + w + 1) (by omega) (by omega)
    rw [hfv]
    refine ⟨⟨hstrict.1, hstrict.2⟩, ?_⟩
    have hmin : (0 : ℚ) ≤ min (min (im0 (y * w + x)) (im0 (y * w + x + 1)))
        (min (im0 (y * w + x + w)) (im0 (y * w + x + w + 1))) :=
      le_min (le_min ha hb) (le_min hc hd)
    exact ne_of_gt (lt_of_le_of_lt (by linarith) hstrict.1)
  · intro s hso
    rcases (mem_allSamples w h s).1 ((mem_orderedPos im0 w h s).1 hso) with
      ⟨h1, h2, h3, h4⟩
    constructor
    · intro hp hcon
      rcases hcon with ⟨hr, hv⟩
      have hcmp := processed_cmp_dumb im0 w h s hp
      unfold cmpS at hcmp
      rw [sval_dumb im0 w h hw hh, hv] at hcmp
      rcases hcmp with hlt | ⟨-, hslt⟩
      · exact absurd hlt (by norm_num)
      · unfold sampleLt dumb at hslt
        rw [hr] at hslt
        simp at hslt
        omega
    · intro hnot
      apply mem_processed_of_cmp im0 w h s hso
      cases hrc : s.real
      · -- virtual sample whose value is not the sentinel: a genuine saddle
        have hne : sval im0 w h s ≠ -1 := fun hv => hnot ⟨hrc, hv⟩
        have hv := sval_virtual im0 w h s hrc h1 h2 h3 h4
        left
        rw [sval_dumb im0 w h hw hh, hv]
        rw [hv, fill_virtual_samples_char] at hne
        rw [fill_virtual_samples_char]
        dsimp only at hne ⊢
        by_cases hcond : s.x + 1 < (w : ℤ) ∧ s.y + 1 < (h : ℤ) ∧
          saddleSpecCond (im0 (s.y * w + s.x)) (im0 (s.y * w + s.x + 1))
            (im0 (s.y * w + s.x + w)) (im0 (s.y * w + s.x + w + 1))
        · rw [if_pos hcond]
          rcases hcond with ⟨hx1, hy1, hspec⟩
          have hstrict := saddle_value_strict (im0 (s.y * w + s.x))
            (im0 (s.y * w + s.x + 1)) (im0 (s.y * w + s.x + w))
            (im0 (s.y * w + s.x + w + 1)) hspec
          have hidx := cell_corner_bounds w h s.x s.y h1 h3 hx1 hy1
          have ha := hnn (s.y * w + s.x) (by omega) (by omega)
          have hb := hnn (s.y * w + s.x + 1) (by omega) (by omega)
          have hc := hnn (s.y * w + s.x + w) (by omega) (by omega)
          have hd := hnn (s.y * w + s.x + w + 1) (by omega) (by omega)
          have hmin : (0 : ℚ) ≤
              min (min (im0 (s.y * w + s.x)) (im0 (s.y * w + s.x + 1)))
                (min (im0 (s.y * w + s.x + w)) (im0 (s.y * w + s.x + w + 1))) :=
            le_min (le_min ha hb) (le_min hc hd)
          linarith [hstrict.1]
        · rw [if_neg hcond] at hne
          exact absurd rfl hne
      · -- real sample: a nonnegative pixel, strictly above the sentinel
        have hv := sval_real im0 w h s hrc h1 h2 h3 h4
        left
        rw [sval_dumb im0 w h hw hh, hv.1]
        have := hnn _ hv.2.1 hv.2.2
        linarith

/-- C9 witness: on the 2x2 checkerboard 0,9/9,0 the single interior cell is
a saddle, so its virtual sample differs from `-1`, while the bottom-right
virtual sample carries `-1`. -/
theorem C9_virtual_samples_witness :
    (∀ k : ℤ, 0 ≤ k → k < ((2 * 2 : ℕ) : ℤ) → 0 ≤ im9 k) ∧
    (fill_virtual_samples im9 2 2 0 0 ≠ -1 ∧ sval im9 2 2 (dumb 2 2) = -1) := by
  have hnn : ∀ k : ℤ, 0 ≤ k → k < ((2 * 2 : ℕ) : ℤ) → 0 ≤ im9 k := by
    intro k hk1 hk2
    unfold im9
    split_ifs <;> norm_num
  have H := C9_virtual_samples im9 2 2 (by norm_num) (by norm_num) hnn
  exact ⟨hnn,
    (H.1 0 0 (by norm_num) (by norm_num) (by norm_num) (by norm_num)
      (by decide)).2, H.2.2⟩

/-! ## The extraction driver (levelLine.cpp)

`extract(im,w,h,ptsPixel,ll,inter)` builds the level lines of the extrema
and of the saddles. The embedding drops the optional `inter` row log and the
interior hyperbola sampling controlled by `ptsPixel` (floating-point `sqrt`;
it only adds intermediate points on the polylines and influences no control
flow or level computation). Loops over the shared `vu`/`visit` arrays become
folds over explicit state; the stack of `find_extremum` and the tracing loop
take fuel, any value past the true iteration count giving the fixpoint. -/

/-- `QLEVEL = 1<<(23-8-6)`: quantification steps of singular levels. -/
def QLEVEL : ℤ := 2 ^ (23 - 8 - 6)

/-- `qlevel(v)`: quantized level of saddles. `modf` splits off the integral
part (truncation toward zero); the fractional part is floored to a multiple
of `1/QLEVEL` and clamped to `[2/QLEVEL, (QLEVEL-2)/QLEVEL]`. -/
def qlevel (v : ℚ) : ℚ :=
  let intpart : ℤ := if 0 ≤ v then ⌊v⌋ else -⌊-v⌋
  let frac : ℚ := v - intpart
  let s : ℤ := max 2 (min (QLEVEL - 2) ⌊frac * QLEVEL⌋)
  (intpart : ℚ) + (s : ℚ) / (QLEVEL : ℚ)

/-- `LevelLine::Type`. -/
inductive LLType where
  | MIN
  | MAX
  | SADDLE
  deriving DecidableEq

/-- A `LevelLine`: its level, its type and its polyline. -/
structure LevelLine where
  level : ℚ
  ty : LLType
  line : List (ℚ × ℚ)
  deriving DecidableEq

/-- The tracing loop of the static `extract`: push the current point, then
`mark_visit` (break on an already-visited horizontal edgel) and `follow`;
returns the polyline and the updated `visit` array. -/
def extractLine (im : ℤ → ℕ) (w : ℕ) (l : ℚ) :
    ℕ → WalkState → List (ℚ × ℚ) × (ℤ → Bool)
  | 0, σ => ([σ.p], σ.visit)
  | fuel + 1, σ =>
    match stepW im w l σ with
    | none => ([σ.p], σ.visit)
    | some σ2 =>
      let r := extractLine im w l fuel σ2
      (σ.p :: r.1, r.2)

/-- The static `extract`: construct the dual pixel at the starting point
(this also moves the point onto the level line) and trace. -/
def extractLL (im : ℤ → ℕ) (w : ℕ) (visit : ℤ → Bool) (l : ℚ) (p0 : ℤ × ℤ)
    (fuel : ℕ) : List (ℚ × ℚ) × (ℤ → Bool) :=
  let dp := dpInit im w p0 l
  extractLine im w l fuel ⟨dp.pos, dp.d, dp.p, visit⟩

/-- Body of the neighbor loop of `find_extremum`: state is
`(vu, stack, success)`. -/
def feNb (im : ℤ → ℕ) (w h : ℕ) (level : ℕ) (mx : Bool)
    (st : (ℤ → Bool) × List (ℤ × ℤ) × Bool) (q : ℤ × ℤ) :
    (ℤ → Bool) × List (ℤ × ℤ) × Bool :=
  let idx : ℤ := q.1 + q.2 * w
  if im idx = level then
    if q.1 = 0 ∨ q.1 + 1 = (w : ℤ) ∨ q.2 = 0 ∨ q.2 + 1 = (h : ℤ) then
      (st.1, st.2.1, false)
    else if st.1 idx = true then st
    else (updB st.1 idx, q :: st.2.1, st.2.2)
  else if mx ≠ decide (im idx < level) then (st.1, st.2.1, false)
  else st

/-- The stack loop of `find_extremum`, with fuel; returns `(vu, V, success)`. -/
def feLoop (im : ℤ → ℕ) (w h : ℕ) (level : ℕ) (mx : Bool) :
    ℕ → (ℤ → Bool) → List (ℤ × ℤ) → List (ℤ × ℤ) → Bool →
    (ℤ → Bool) × List (ℤ × ℤ) × Bool
  | 0, vu, _, V, success => (vu, V, success)
  | _ + 1, vu, [], V, success => (vu, V, success)
  | fuel + 1, vu, p :: S, V, success =>
    let st := ([0, 1, 2, 3] : List ℕ).foldl
      (fun st i => feNb im w h level mx st (p + delta i)) (vu, S, success)
    feLoop im w h level mx fuel st.1 st.2.1 (V ++ [p]) st.2.2

/-- `find_extremum(im,w,h,x,y,max,vu,V)`: flood fill of the level set of
`(x,y)`, recording explored pixels in `vu` and the component in `V`;
`success` becomes false on touching the border or a value on the wrong
side. -/
def find_extremum (im : ℤ → ℕ) (w h : ℕ) (x y : ℕ) (mx : Bool)
    (vu : ℤ → Bool) (fuel : ℕ) : (ℤ → Bool) × List (ℤ × ℤ) × Bool :=
  let idx : ℤ := (x : ℤ) + (y : ℤ) * w
  feLoop im w h (im idx) mx fuel (updB vu idx) [((x : ℤ), (y : ℤ))] [] true

/-- Body of the per-pixel loop of `handle_extrema`: state is
`(vu, visit, ll)`. -/
def heCell (im : ℤ → ℕ) (w h fuel : ℕ) (x y : ℕ)
    (st : (ℤ → Bool) × (ℤ → Bool) × List LevelLine) :
    (ℤ → Bool) × (ℤ → Bool) × List LevelLine :=
  let idx : ℤ := (y : ℤ) * w + x
  if st.1 idx = true ∨ im idx = im (idx + 1) then st
  else
    let level := im idx
    let mx : Bool := decide (im (idx + 1) < level)
    let r := find_extremum im w h x y mx st.1 fuel
    if r.2.2 = false then (r.1, st.2.1, st.2.2)
    else
      let v : ℚ := if mx then (level : ℚ) - 1 / 512 else (level : ℚ) + 1 / 512
      let fin := r.2.1.foldl (fun (st2 : (ℤ → Bool) × List LevelLine) pt =>
        let idx2 : ℤ := pt.1 + pt.2 * w
        if im (idx2 + 1) ≠ level ∧ st2.1 idx2 = false then
          let tr := extractLL im w st2.1 v pt fuel
          (tr.2, st2.2 ++ [⟨v, if mx then LLType.MAX else LLType.MIN, tr.1⟩])
        else st2) (st.2.1, st.2.2)
      (r.1, fun _ => false, fin.2)

/-- `handle_extrema`: scan the interior pixels in raster order and extract
one level line per regional extremum; returns `(visit, ll)`. -/
def handle_extrema (im : ℤ → ℕ) (w h fuel : ℕ) (visit0 : ℤ → Bool) :
    (ℤ → Bool) × List LevelLine :=
  let fin := (List.range h).foldl (fun st y =>
    if 1 ≤ y ∧ y + 1 < h then
      (List.range w).foldl (fun st2 x =>
        if 1 ≤ x ∧ x + 1 < w then heCell im w h fuel x y st2 else st2) st
    else st) ((fun _ => false), visit0, ([] : List LevelLine))
  (fin.2.1, fin.2.2)

/-- A recorded `Saddle`: top-left corner of its dual pixel and its level. -/
structure Saddle where
  x : ℕ
  y : ℕ
  value : ℚ
  deriving DecidableEq

/-- `find_saddles`: scan all dual pixels with `level_saddle`. -/
def find_saddles (im : ℤ → ℕ) (w h : ℕ) : List Saddle :=
  (List.range h).foldl (fun S y =>
    (List.range w).foldl (fun S2 x =>
      match level_saddle im w h x y with
      | some v => S2 ++ [⟨x, y, v⟩]
      | none => S2) S) []

/-- Body of the per-saddle loop of `handle_saddles`: try the two starting
points above the two horizontal edgels of the saddle's dual pixel. -/
def hsInner (im : ℤ → ℕ) (w fuel : ℕ) (v : ℚ)
    (st : (ℤ → Bool) × List LevelLine) (s : Saddle) :
    (ℤ → Bool) × List LevelLine :=
  ([0, 1] : List ℤ).foldl (fun st2 i =>
    if st2.1 ((s.x : ℤ) + ((s.y : ℤ) + i) * w) = false then
      let tr := extractLL im w st2.1 v ((s.x : ℤ), (s.y : ℤ) + i) fuel
      (tr.2, st2.2 ++ [⟨v, LLType.SADDLE, tr.1⟩])
    else st2) st

/-- The grouping loop of `handle_saddles`: saddles quantizing to the same
level are handled together, and the `visit` array is cleared after each
group. The group fuel is spent one group at a time; `length + 1` groups
always suffice. -/
def hsGroups (im : ℤ → ℕ) (w fuel : ℕ) :
    ℕ → List Saddle → (ℤ → Bool) → List LevelLine →
    (ℤ → Bool) × List LevelLine
  | 0, _, visit, ll => (visit, ll)
  | _ + 1, [], visit, ll => (visit, ll)
  | gfuel + 1, s :: rest, visit, ll =>
    let v := qlevel s.value
    let grp := s :: rest.takeWhile (fun t => decide (qlevel t.value = v))
    let rest2 := rest.dropWhile (fun t => decide (qlevel t.value = v))
    let st := grp.foldl (hsInner im w fuel v) (visit, ll)
    hsGroups im w fuel gfuel rest2 (fun _ => false) st.2

/-- `handle_saddles`: sort the saddles by value and extract the level lines
of each quantized level. `std::sort`'s comparator `s1.value < s2.value` is
embedded as the insertion sort on the matching total preorder. -/
def handle_saddles (im : ℤ → ℕ) (w h fuel : ℕ)
    (st : (ℤ → Bool) × List LevelLine) : (ℤ → Bool) × List LevelLine :=
  let S := sortBy (fun s1 s2 : Saddle => !decide (s2.value < s1.value))
    (find_saddles im w h)
  hsGroups im w fuel (S.length + 1) S st.1 st.2

/-- The extraction driver `extract(im,w,h,ptsPixel,ll,inter)`: fresh `visit`
array, extrema first, saddles second. It performs no size check of any
kind. -/
def extract (im : ℤ → ℕ) (w h fuel : ℕ) : List LevelLine × (ℤ → Bool) :=
  let he := handle_extrema im w h fuel (fun _ => false)
  let hs := handle_saddles im w h fuel he
  (hs.2, hs.1)

/-- The error signal §7 of the specification prescribes. -/
inductive ExtractError where
  | TooLarge
  deriving DecidableEq

/-- The driver as the SPECIFICATION describes it (spec-modelled, for
comparison with `extract`): refuse images wider than 1024 pixels with
`TooLarge`, run the extraction otherwise. -/
def extract_checked (im : ℤ → ℕ) (w h fuel : ℕ) :
    Except ExtractError (List LevelLine × (ℤ → Bool)) :=
  if 1024 < w then Except.error ExtractError.TooLarge
  else Except.ok (extract im w h fuel)

set_option maxRecDepth 8000 in
/-- C8. Counterexample to the claim as stated: on the constant image of
width 1025 the specification's engine refuses with `TooLarge`, but the
code's extraction driver proceeds normally and returns a result (here: no
level lines, no visited edgel) — the code contains no width check at all
and its driver cannot signal any error. -/
theorem C8_counterexample :
    extract_checked (fun _ => 0) 1025 1 4 =
      Except.error ExtractError.TooLarge ∧
    (extract (fun _ => 0) 1025 1 4).1 = [] ∧
    (extract (fun _ => 0) 1025 1 4).2 0 = false := by
  refine ⟨rfl, ?_, ?_⟩ <;> rfl

/-- C8 (amended). The extraction engine performs no width check: for every
image and every size it runs the unguarded pipeline, so the spec-modelled
checked engine agrees with the code exactly on widths up to 1024 and
refuses — producing an error value the code never produces — exactly on the
widths beyond. -/
theorem C8_no_width_check (im : ℤ → ℕ) (w h fuel : ℕ) :
    (extract_checked im w h fuel = Except.ok (extract im w h fuel) ↔
      w ≤ 1024) ∧
    (extract_checked im w h fuel = Except.error ExtractError.TooLarge ↔
      1024 < w) := by
  unfold extract_checked
  by_cases hw : 1024 < w
  · rw [if_pos hw]
    refine ⟨⟨fun hcon => ?_, fun hle => absurd hw (not_lt.2 hle)⟩,
      ⟨fun _ => hw, fun _ => rfl⟩⟩
    cases hcon
  · rw [if_neg hw]
    refine ⟨⟨fun _ => by omega, fun _ => rfl⟩,
      ⟨fun hcon => ?_, fun hlt => absurd hlt hw⟩⟩
    cases hcon

/-! ## Bounds on the contrasts computed by `compute_tree` (C2) -/

lemma nodeAt_oob : ∀ (t : List PNode) (i : ℕ), t.length ≤ i → nodeAt t i = dNode := by
  intro t
  induction t with
  | nil => intro i _; cases i <;> rfl
  | cons a r ih =>
    intro i hle
    cases i with
    | zero => simp at hle
    | succ n =>
      show (a :: r).getD (n + 1) dNode = dNode
      rw [List.getD_cons_succ]
      exact ih n (by simp at hle; omega)

lemma nodeAt_mem : ∀ (t : List PNode) (i : ℕ), i < t.length → nodeAt t i ∈ t := by
  intro t
  induction t with
  | nil => intro i h; simp at h
  | cons a r ih =>
    intro i h
    cases i with
    | zero => exact List.mem_cons_self a r
    | succ n =>
      show (a :: r).getD (n + 1) dNode ∈ a :: r
      rw [List.getD_cons_succ]
      exact List.mem_cons_of_mem a (ih n (by simp at h; omega))

lemma set_oob_pn : ∀ (t : List PNode) (i : ℕ) (x : PNode), t.length ≤ i →
    t.set i x = t := by
  intro t
  induction t with
  | nil => intro i x _; cases i <;> rfl
  | cons a r ih =>
    intro i x hle
    cases i with
    | zero => simp at hle
    | succ n =>
      show a :: r.set n x = a :: r
      rw [ih n x (by simp at hle; omega)]

lemma nodeAt_set_eq : ∀ (t : List PNode) (i : ℕ) (x : PNode), i < t.length →
    nodeAt (t.set i x) i = x := by
  intro t
  induction t with
  | nil => intro i x h; simp at h
  | cons a r ih =>
    intro i x h
    cases i with
    | zero => rfl
    | succ n =>
      show (a :: r.set n x).getD (n + 1) dNode = x
      rw [List.getD_cons_succ]
      exact ih n x (by simp at h; omega)

lemma nodeAt_set_ne : ∀ (t : List PNode) (i k : ℕ) (x : PNode), k ≠ i →
    nodeAt (t.set i x) k = nodeAt t k := by
  intro t
  induction t with
  | nil => intro i k x _; cases i <;> rfl
  | cons a r ih =>
    intro i k x hne
    cases i with
    | zero =>
      cases k with
      | zero => exact absurd rfl hne
      | succ n =>
        show (x :: r).getD (n + 1) dNode = (a :: r).getD (n + 1) dNode
        rw [List.getD_cons_succ, List.getD_cons_succ]
    | succ m =>
      cases k with
      | zero => rfl
      | succ n =>
        show (a :: r.set m x).getD (n + 1) dNode = (a :: r).getD (n + 1) dNode
        rw [List.getD_cons_succ, List.getD_cons_succ]
        exact ih m n x (by omega)

/-- The loop body of the node-enumeration phase of `compute_tree`. -/
def bnStep (im0 : ℤ → ℚ) (w h : ℕ) (par : ℤ → Sample)
    (acc : List (Sample × ℕ) × List PNode) (p : Sample) :
    List (Sample × ℕ) × List PNode :=
  if is_canonical im0 w h par p then
    (acc.1 ++ [(p, acc.2.length)],
     acc.2 ++ [⟨0, [], imFull im0 w h (sidx w h p), 0⟩])
  else acc

lemma buildNodes_eq (im0 : ℤ → ℚ) (w h : ℕ) (par : ℤ → Sample) :
    buildNodes im0 w h par =
      (enumSamples w h).foldl (bnStep im0 w h par) ([], []) := rfl

/-- The loop body of the children-filling phase of `compute_tree`. -/
def fcStep (w h : ℕ) (par : ℤ → Sample) (m : List (Sample × ℕ))
    (acc : List PNode × ℕ) (e : Sample × ℕ) : List PNode × ℕ :=
  if par (sidx w h e.1) = e.1 then (acc.1, e.2)
  else
    let pi := (lookupM m (par (sidx w h e.1))).getD 0
    let n1 := nodeAt acc.1 pi
    let t1 := acc.1.set pi ⟨n1.parent, n1.children ++ [e.2], n1.level, n1.contrast⟩
    let n2 := nodeAt t1 e.2
    (t1.set e.2 ⟨pi, n2.children, n2.level, n2.contrast⟩, acc.2)

lemma fillChildren_eq (w h : ℕ) (par : ℤ → Sample) (m : List (Sample × ℕ))
    (t0 : List PNode) :
    fillChildren w h par m t0 = m.foldl (fcStep w h par m) (t0, 0) := rfl

/-- The loop body of the child recursion of `fill_contrast_uptree`. -/
def upStep (fuel i : ℕ) (acc : List PNode × ℚ) (j : ℕ) : List PNode × ℚ :=
  let rc := fill_contrast_uptree fuel acc.1 j
  let c := rc.2 + (nodeAt rc.1 i).level - (nodeAt rc.1 j).level
  (rc.1, if acc.2 < c then c else acc.2)

lemma uptree_succ (fuel : ℕ) (t : List PNode) (i : ℕ) :
    fill_contrast_uptree (fuel + 1) t i =
      (let r := (nodeAt t i).children.foldl (upStep fuel i) (t, 0)
       (r.1.set i ⟨(nodeAt r.1 i).parent, (nodeAt r.1 i).children,
         (nodeAt r.1 i).level, r.2⟩, r.2)) := rfl

/-- The arg-max computation of `fill_contrast_downtree`. -/
def dnArg (t : List PNode) (i : ℕ) : ℚ × List ℕ :=
  (nodeAt t i).children.foldl
    (fun (acc : ℚ × List ℕ) j =>
      let c := (nodeAt t j).contrast
      if acc.1 ≤ c then
        (if acc.1 ≠ c then (c, [j]) else (acc.1, acc.2 ++ [j]))
      else acc)
    (0, [])

/-- The contrast-propagation write of `fill_contrast_downtree`. -/
def dnStepSet (i : ℕ) (tt : List PNode) (j : ℕ) : List PNode :=
  let nj := nodeAt tt j
  tt.set j ⟨nj.parent, nj.children, nj.level, (nodeAt tt i).contrast⟩

lemma downtree_succ (fuel : ℕ) (t : List PNode) (i : ℕ) :
    fill_contrast_downtree (fuel + 1) t i =
      (nodeAt t i).children.foldl (fun tt j => fill_contrast_downtree fuel tt j)
        ((dnArg t i).2.foldl (dnStepSet i) t) := rfl

/-- Node invariant before the contrast passes: level between the image
extremes, zero contrast, children indices below the tree size. -/
def NInv (lo hi : ℚ) (N : ℕ) (n : PNode) : Prop :=
  (lo ≤ n.level ∧ n.level ≤ hi) ∧ n.contrast = 0 ∧ ∀ j ∈ n.children, j < N

lemma set_preserves_NInv (lo hi : ℚ) (N : ℕ) (t : List PNode) (i : ℕ)
    (x : PNode) (hinv : ∀ n ∈ t, NInv lo hi N n)
    (hx : i < t.length → NInv lo hi N x) :
    ∀ n ∈ t.set i x, NInv lo hi N n := by
  by_cases hi : i < t.length
  · intro n hn
    rcases List.mem_or_eq_of_mem_set hn with hn1 | rfl
    · exact hinv n hn1
    · exact hx hi
  · rw [set_oob_pn t i x (by omega)]
    exact hinv

/-- After the enumeration phase: map entries index into the tree, and every
node carries a processed sample's level with zero contrast and no
children. -/
lemma buildNodes_ok (im0 : ℤ → ℚ) (w h : ℕ) :
    (∀ e ∈ (buildNodes im0 w h (parCanon im0 w h)).1,
      e.2 < (buildNodes im0 w h (parCanon im0 w h)).2.length) ∧
    (∀ n ∈ (buildNodes im0 w h (parCanon im0 w h)).2,
      (imgMin im0 w h ≤ n.level ∧ n.level ≤ imgMax im0 w h) ∧
      n.contrast = 0 ∧ n.children = []) := by
  have hOk := parCanon_ok im0 w h
  have hlevel : ∀ p : Sample, is_canonical im0 w h (parCanon im0 w h) p →
      imgMin im0 w h ≤ imFull im0 w h (sidx w h p) ∧
      imFull im0 w h (sidx w h p) ≤ imgMax im0 w h := by
    intro p hp
    rcases hOk.1 (sidx w h p) hp.1 with ⟨-, ⟨s, hsP, hks⟩, -⟩
    rw [hks]
    exact processed_val_mem im0 w h s hsP
  rw [buildNodes_eq]
  suffices H : ∀ (L : List Sample) (acc : List (Sample × ℕ) × List PNode),
      (∀ e ∈ acc.1, e.2 < acc.2.length) →
      (∀ n ∈ acc.2, (imgMin im0 w h ≤ n.level ∧ n.level ≤ imgMax im0 w h) ∧
        n.contrast = 0 ∧ n.children = []) →
      (∀ e ∈ (L.foldl (bnStep im0 w h (parCanon im0 w h)) acc).1,
        e.2 < (L.foldl (bnStep im0 w h (parCanon im0 w h)) acc).2.length) ∧
      (∀ n ∈ (L.foldl (bnStep im0 w h (parCanon im0 w h)) acc).2,
        (imgMin im0 w h ≤ n.level ∧ n.level ≤ imgMax im0 w h) ∧
        n.contrast = 0 ∧ n.children = []) by
    exact H (enumSamples w h) ([], []) (by intro e he; cases he)
      (by intro n hn; cases hn)
  intro L
  induction L with
  | nil => intro acc h1 h2; exact ⟨h1, h2⟩
  | cons p L2 ihL =>
    intro acc h1 h2
    rw [List.foldl_cons]
    apply ihL
    · intro e he
      unfold bnStep at he ⊢
      split_ifs at he ⊢ with hp
      · dsimp only at he ⊢
        rw [List.length_append]
        rcases List.mem_append.1 he with he1 | he2
        · have := h1 e he1
          simp only [List.length_singleton]
          omega
        · rw [List.mem_singleton.1 he2]
          simp only [List.length_singleton]
          omega
      · exact h1 e he
    · intro n hn
      unfold bnStep at hn
      split_ifs at hn with hp
      · dsimp only at hn
        rcases List.mem_append.1 hn with hn1 | hn2
        · exact h2 n hn1
        · rw [List.mem_singleton.1 hn2]
          exact ⟨hlevel p hp, rfl, rfl⟩
      · exact h2 n hn

/-- The children-filling phase keeps the tree size, the levels and the zero
contrasts, and pushes only in-range child indices. -/
lemma fillChildren_ok (w h : ℕ) (par : ℤ → Sample) (lo hi : ℚ)
    (m : List (Sample × ℕ)) (t0 : List PNode)
    (hm : ∀ e ∈ m, e.2 < t0.length)
    (ht : ∀ n ∈ t0, NInv lo hi t0.length n) :
    (fillChildren w h par m t0).1.length = t0.length ∧
    ∀ n ∈ (fillChildren w h par m t0).1, NInv lo hi t0.length n := by
  rw [fillChildren_eq]
  suffices H : ∀ (L : List (Sample × ℕ)) (acc : List PNode × ℕ),
      (∀ e ∈ L, e.2 < t0.length) → acc.1.length = t0.length →
      (∀ n ∈ acc.1, NInv lo hi t0.length n) →
      (L.foldl (fcStep w h par m) acc).1.length = t0.length ∧
      ∀ n ∈ (L.foldl (fcStep w h par m) acc).1, NInv lo hi t0.length n by
    exact H m (t0, 0) hm rfl ht
  intro L
  induction L with
  | nil => intro acc _ hlen hinv; exact ⟨hlen, hinv⟩
  | cons e L2 ihL =>
    intro acc hL hlen hinv
    rw [List.foldl_cons]
    have he : e.2 < t0.length := hL e (List.mem_cons_self e L2)
    have hstep : (fcStep w h par m acc e).1.length = t0.length ∧
        ∀ n ∈ (fcStep w h par m acc e).1, NInv lo hi t0.length n := by
      unfold fcStep
      split_ifs with hroot
      · exact ⟨hlen, hinv⟩
      · dsimp only
        generalize hgpi : (lookupM m (par (sidx w h e.1))).getD 0 = pi
        generalize hgt1 : acc.1.set pi
          ⟨(nodeAt acc.1 pi).parent, (nodeAt acc.1 pi).children ++ [e.2],
           (nodeAt acc.1 pi).level, (nodeAt acc.1 pi).contrast⟩ = t1
        have hlen1 : t1.length = t0.length := by
          rw [← hgt1, List.length_set]; exact hlen
        have hinv1 : ∀ n ∈ t1, NInv lo hi t0.length n := by
          rw [← hgt1]
          apply set_preserves_NInv lo hi t0.length acc.1 pi _ hinv
          intro hpl
          have hmem := hinv _ (nodeAt_mem acc.1 pi hpl)
          refine ⟨hmem.1, hmem.2.1, ?_⟩
          intro j hj
          rcases List.mem_append.1 hj with hj1 | hj2
          · exact hmem.2.2 j hj1
          · rw [List.mem_singleton.1 hj2]; exact he
        refine ⟨?_, ?_⟩
        · rw [List.length_set]; exact hlen1
        · apply set_preserves_NInv lo hi t0.length t1 e.2 _ hinv1
          intro he2
          have hmem := hinv1 _ (nodeAt_mem t1 e.2 he2)
          exact ⟨hmem.1, hmem.2.1, hmem.2.2⟩
    apply ihL _ (fun e2 he2 => hL e2 (List.mem_cons_of_mem e he2))
      hstep.1 hstep.2

/-- Pointwise preservation of size, levels and children across a pass. -/
def SameShape (t t2 : List PNode) : Prop :=
  t2.length = t.length ∧ ∀ k, (nodeAt t2 k).level = (nodeAt t k).level ∧
    (nodeAt t2 k).children = (nodeAt t k).children

lemma ss_refl (t : List PNode) : SameShape t t := ⟨rfl, fun _ => ⟨rfl, rfl⟩⟩

lemma ss_trans {t t2 t3 : List PNode} (h1 : SameShape t t2)
    (h2 : SameShape t2 t3) : SameShape t t3 :=
  ⟨h2.1.trans h1.1, fun k => ⟨(h2.2 k).1.trans (h1.2 k).1,
    (h2.2 k).2.trans (h1.2 k).2⟩⟩

/-- Invariant during the up pass: levels between the extremes, contrast
between `0` and `level - lo`, children in range. -/
def TreeOkN (lo hi : ℚ) (N : ℕ) (t : List PNode) : Prop :=
  ∀ n ∈ t, (lo ≤ n.level ∧ n.level ≤ hi) ∧
    (0 ≤ n.contrast ∧ n.contrast ≤ n.level - lo) ∧ ∀ j ∈ n.children, j < N

/-- The up pass keeps the shape and the fine invariant, and returns a
contrast between `0` and `level(root) - lo`. -/
lemma ut_ok (lo hi : ℚ) (N : ℕ) :
    ∀ (fuel : ℕ) (t : List PNode) (i : ℕ), t.length = N →
      TreeOkN lo hi N t →
      SameShape t (fill_contrast_uptree fuel t i).1 ∧
      TreeOkN lo hi N (fill_contrast_uptree fuel t i).1 ∧
      0 ≤ (fill_contrast_uptree fuel t i).2 ∧
      (i < t.length →
        (fill_contrast_uptree fuel t i).2 ≤ (nodeAt t i).level - lo) := by
  intro fuel
  induction fuel with
  | zero =>
    intro t i hN ht
    refine ⟨ss_refl t, ht, ?_, ?_⟩
    · show 0 ≤ (nodeAt t i).contrast
      by_cases hi : i < t.length
      · exact (ht _ (nodeAt_mem t i hi)).2.1.1
      · rw [nodeAt_oob t i (by omega)]
        norm_num [dNode]
    · intro hi
      exact (ht _ (nodeAt_mem t i hi)).2.1.2
  | succ fuel ih =>
    intro t i hN ht
    rw [uptree_succ]
    dsimp only
    by_cases hilen : i < t.length
    · have hch : ∀ j ∈ (nodeAt t i).children, j < N :=
        (ht _ (nodeAt_mem t i hilen)).2.2
      have hlev := (ht _ (nodeAt_mem t i hilen)).1
      have hfold : ∀ (L : List ℕ) (acc : List PNode × ℚ),
          (∀ j ∈ L, j < N) → SameShape t acc.1 → TreeOkN lo hi N acc.1 →
          0 ≤ acc.2 → acc.2 ≤ (nodeAt t i).level - lo →
          SameShape t (L.foldl (upStep fuel i) acc).1 ∧
          TreeOkN lo hi N (L.foldl (upStep fuel i) acc).1 ∧
          0 ≤ (L.foldl (upStep fuel i) acc).2 ∧
          (L.foldl (upStep fuel i) acc).2 ≤ (nodeAt t i).level - lo := by
        intro L
        induction L with
        | nil =>
          intro acc _ h1 h2 h3 h4
          rw [List.foldl_nil]
          exact ⟨h1, h2, h3, h4⟩
        | cons j L2 ihL =>
          intro acc hL h1 h2 h3 h4
          rw [List.foldl_cons]
          have hjN : j < N := hL j (List.mem_cons_self j L2)
          rcases ih acc.1 j (h1.1.trans hN) h2 with ⟨hs1, ht1, hc1, hc2⟩
          have hjt : j < acc.1.length := by rw [h1.1, hN]; exact hjN
          have hlevi : (nodeAt (fill_contrast_uptree fuel acc.1 j).1 i).level =
              (nodeAt t i).level := (hs1.2 i).1.trans (h1.2 i).1
          have hlevj : (nodeAt (fill_contrast_uptree fuel acc.1 j).1 j).level =
              (nodeAt t j).level := (hs1.2 j).1.trans (h1.2 j).1
          have hlevj2 : (nodeAt acc.1 j).level = (nodeAt t j).level := (h1.2 j).1
          have hb := hc2 hjt
          apply ihL (upStep fuel i acc j)
            (fun j2 hj2 => hL j2 (List.mem_cons_of_mem j hj2))
          · exact ss_trans h1 hs1
          · exact ht1
          · show 0 ≤ (upStep fuel i acc j).2
            unfold upStep
            dsimp only
            split_ifs with hlt
            · linarith
            · exact h3
          · show (upStep fuel i acc j).2 ≤ (nodeAt t i).level - lo
            unfold upStep
            dsimp only
            split_ifs with hlt
            · rw [hlevi, hlevj]
              rw [hlevj2] at hb
              linarith
            · exact h4
      rcases hfold (nodeAt t i).children (t, 0) hch (ss_refl t) ht (le_refl 0)
        (show (0 : ℚ) ≤ (nodeAt t i).level - lo by linarith [hlev.1]) with
        ⟨hS, hT, hc0, hcb⟩
      generalize hgr : (nodeAt t i).children.foldl (upStep fuel i) (t, 0) = r
      rw [hgr] at hS hT hc0 hcb
      have hir : i < r.1.length := by rw [hS.1]; exact hilen
      have hlevr : (nodeAt r.1 i).level = (nodeAt t i).level := (hS.2 i).1
      have hchr : (nodeAt r.1 i).children = (nodeAt t i).children := (hS.2 i).2
      refine ⟨?_, ?_, hc0, fun _ => hcb⟩
      · refine ⟨?_, ?_⟩
        · rw [List.length_set]; exact hS.1
        · intro k
          by_cases hk : k = i
          · rw [hk, nodeAt_set_eq _ _ _ hir]
            exact ⟨hlevr, hchr⟩
          · rw [nodeAt_set_ne _ _ _ _ hk]
            exact hS.2 k
      · intro n hn
        rcases List.mem_or_eq_of_mem_set hn with hn1 | rfl
        · exact hT n hn1
        · refine ⟨?_, ?_, ?_⟩
          · show lo ≤ (nodeAt r.1 i).level ∧ (nodeAt r.1 i).level ≤ hi
            rw [hlevr]
            exact hlev
          · show 0 ≤ r.2 ∧ r.2 ≤ (nodeAt r.1 i).level - lo
            rw [hlevr]
            exact ⟨hc0, hcb⟩
          · show ∀ j ∈ (nodeAt r.1 i).children, j < N
            rw [hchr]
            exact hch
    · have hch : (nodeAt t i).children = [] := by
        rw [nodeAt_oob t i (by omega)]
        rfl
      rw [hch]
      simp only [List.foldl_nil]
      rw [set_oob_pn t i _ (by omega)]
      exact ⟨ss_refl t, ht, le_refl 0, fun hcon => absurd hcon hilen⟩

/-- Coarse invariant for the down pass: all contrasts within `[0, D]`. -/
def TreeOkC (D : ℚ) (t : List PNode) : Prop :=
  ∀ n ∈ t, 0 ≤ n.contrast ∧ n.contrast ≤ D

/-- The down pass only copies contrasts already present in the tree, so the
coarse bound survives it. -/
lemma dt_ok (D : ℚ) (hD : 0 ≤ D) :
    ∀ (fuel : ℕ) (t : List PNode) (i : ℕ), TreeOkC D t →
      TreeOkC D (fill_contrast_downtree fuel t i) := by
  intro fuel
  induction fuel with
  | zero => intro t i ht; exact ht
  | succ fuel ih =>
    intro t i ht
    rw [downtree_succ]
    have hset : ∀ (L : List ℕ) (tt : List PNode), TreeOkC D tt →
        TreeOkC D (L.foldl (dnStepSet i) tt) := by
      intro L
      induction L with
      | nil => intro tt hH; exact hH
      | cons j L2 ihL =>
        intro tt hH
        rw [List.foldl_cons]
        apply ihL
        show TreeOkC D (dnStepSet i tt j)
        unfold dnStepSet
        dsimp only
        intro n hn
        rcases List.mem_or_eq_of_mem_set hn with hn1 | rfl
        · exact hH n hn1
        · by_cases hir : i < tt.length
          · exact hH (nodeAt tt i) (nodeAt_mem tt i hir)
          · rw [nodeAt_oob tt i (by omega)]
            exact ⟨le_refl 0, hD⟩
    have hrec : ∀ (L : List ℕ) (tt : List PNode), TreeOkC D tt →
        TreeOkC D (L.foldl (fun tt j => fill_contrast_downtree fuel tt j) tt) := by
      intro L
      induction L with
      | nil => intro tt hH; exact hH
      | cons j L2 ihL =>
        intro tt hH
        rw [List.foldl_cons]
        exact ihL _ (ih tt j hH)
    exact hrec _ _ (hset _ _ ht)

/-- All contrasts of the tree returned by `compute_tree` on the
canonicalized parent array lie within `[0, max(im) - min(im)]`. -/
lemma compute_tree_ok (im0 : ℤ → ℚ) (w h : ℕ) :
    ∀ n ∈ (compute_tree im0 w h (parCanon im0 w h)).2,
      0 ≤ n.contrast ∧ n.contrast ≤ imgMax im0 w h - imgMin im0 w h := by
  intro n hmem
  have hbn := buildNodes_ok im0 w h
  simp only [compute_tree] at hmem
  obtain ⟨bm, hg1⟩ : ∃ bm, buildNodes im0 w h (parCanon im0 w h) = bm :=
    ⟨_, rfl⟩
  rw [hg1] at hmem hbn
  rcases hbn with ⟨hm, hn⟩
  have hfc := fillChildren_ok w h (parCanon im0 w h) (imgMin im0 w h)
    (imgMax im0 w h) bm.1 bm.2 hm
    (by
      intro n2 hn2
      rcases hn n2 hn2 with ⟨hl, hc, hch⟩
      exact ⟨hl, hc, by rw [hch]; intro j hj; cases hj⟩)
  obtain ⟨fc, hg2⟩ : ∃ fc, fillChildren w h (parCanon im0 w h) bm.1 bm.2 = fc :=
    ⟨_, rfl⟩
  rw [hg2] at hmem hfc
  rcases hfc with ⟨hflen, hfinv⟩
  have htok : TreeOkN (imgMin im0 w h) (imgMax im0 w h) bm.2.length fc.1 := by
    intro n2 hn2
    rcases hfinv n2 hn2 with ⟨hl, hc, hch⟩
    exact ⟨hl, ⟨by rw [hc], by rw [hc]; linarith [hl.1]⟩, hch⟩
  rcases ut_ok (imgMin im0 w h) (imgMax im0 w h) bm.2.length
    (fc.1.length + 1) fc.1 fc.2 hflen htok with ⟨-, hT, -, -⟩
  obtain ⟨u, hg3⟩ : ∃ u, fill_contrast_uptree (fc.1.length + 1) fc.1 fc.2 = u :=
    ⟨_, rfl⟩
  rw [hg3] at hmem hT
  have htc : TreeOkC (imgMax im0 w h - imgMin im0 w h) u.1 := by
    intro n2 hn2
    rcases hT n2 hn2 with ⟨hl, hc, -⟩
    exact ⟨hc.1, by linarith [hc.2, hl.2]⟩
  exact dt_ok (imgMax im0 w h - imgMin im0 w h)
    (by linarith [imgMin_le_imgMax im0 w h]) (u.1.length + 1) u.1 fc.2 htc n hmem

/-- C2. For every image of positive width and height, every value that
`persistence(im,w,h,out)` writes to `out` lies between `0` and
`max(im) - min(im)`: every emitted value is the contrast of a node of the
component tree, node levels are values of processed samples — pixels or
genuine saddle values, all within `[min(im), max(im)]` — the up pass keeps
every contrast within `[0, level - min(im)]`, and the down pass only copies
existing contrasts. -/
theorem C2_persistence_bounded (im0 : ℤ → ℚ) (w h : ℕ)
    (hw : 1 ≤ w) (hh : 1 ≤ h) (x y : ℤ) (v : ℚ)
    (hv : persistence im0 w h x y = some v) :
    0 ≤ v ∧ v ≤ imgMax im0 w h - imgMin im0 w h := by
  have hct := compute_tree_ok im0 w h
  simp only [persistence, fill_persistence] at hv
  rcases Option.bind_eq_some.1 hv with ⟨i, hi, hmap⟩
  rcases Option.map_eq_some'.1 hmap with ⟨nn, hnn, hvn⟩
  have hmem : nn ∈ (compute_tree im0 w h (parCanon im0 w h)).2 :=
    List.get?_mem hnn
  rw [← hvn]
  exact hct nn hmem

/-- C2 witness: on the 1x1 zero image the single pixel's persistence is `0`,
within `[0, max - min] = [0, 0]`. -/
theorem C2_persistence_bounded_witness :
    persistence (fun _ => (0 : ℚ)) 1 1 0 0 = some 0 ∧
    (0 ≤ (0 : ℚ) ∧
      (0 : ℚ) ≤ imgMax (fun _ => (0 : ℚ)) 1 1 - imgMin (fun _ => (0 : ℚ)) 1 1) :=
  ⟨by decide, C2_persistence_bounded (fun _ => (0 : ℚ)) 1 1 (le_refl 1)
    (le_refl 1) 0 0 0 (by decide)⟩

end Reeb
